import Mathlib

/-!
Verification development for the UrlShortener repository.

Strings of the Python program are modelled as `List Char` (Python `str` is a
sequence of unicode code points), byte strings as `List Nat` with every
element below 256.  Library functions used by the repository are embedded at
the byte/character level:

* `base64.urlsafe_b64encode` / `urlsafe_b64decode` follow CPython's
  `binascii` implementation, including the lenient (non-strict) decoder that
  skips invalid characters and tolerates excess padding;
* `str.encode()` / `bytes.decode()` are the UTF-8 codec;
* `urllib.parse.urlparse` / `urlunparse` follow CPython 3.11 (the version
  family required by the project's Django release), minus the `ValueError`
  branches for mismatched IPv6 brackets and non-NFKC netlocs, which do not
  arise in the claims considered here;
* `hmac.new(SECRET_KEY, msg, sha256).hexdigest()` is an unknown but fixed
  function of the message (the secret is deployment configuration), passed
  everywhere as a parameter `digest`; the only fact used about it is that a
  SHA-256 hex digest has 64 characters;
* `zlib.compress` / `zlib.decompress` are opaque parameters subject to the
  documented round-trip contract.

Stateful code (Django ORM rows, the Django cache, Redis hashes, Celery task
effects) is embedded as explicit state passing over association lists.
-/

/-! ### ASCII character helpers -/

def isAsciiUpper (c : Char) : Bool := 65 ≤ c.toNat && c.toNat ≤ 90

def isAsciiLower (c : Char) : Bool := 97 ≤ c.toNat && c.toNat ≤ 122

def isAsciiAlpha (c : Char) : Bool := isAsciiUpper c || isAsciiLower c

def isAsciiDigit (c : Char) : Bool := 48 ≤ c.toNat && c.toNat ≤ 57

/-- Model of Python `str.lower` restricted to ASCII; in the program it is
only ever applied to strings whose characters all pass the ASCII-only
`scheme_chars` test, where the two agree. -/
def lowerChar (c : Char) : Char :=
  if isAsciiUpper c then Char.ofNat (c.toNat + 32) else c

def lowerList (l : List Char) : List Char := l.map lowerChar

/-! ### base64 (urlsafe alphabet), following CPython binascii -/

/-- Character of the urlsafe base64 alphabet for a 6-bit value. -/
def b64char (v : Nat) : Char :=
  if v < 26 then Char.ofNat (65 + v)
  else if v < 52 then Char.ofNat (97 + (v - 26))
  else if v < 62 then Char.ofNat (48 + (v - 52))
  else if v = 62 then Char.ofNat 45
  else Char.ofNat 95

/-- Decoding table of `binascii.a2b_base64` composed with the `-_` → `+/`
translation done by `base64.urlsafe_b64decode`: both alphabets are accepted. -/
def b64table (c : Char) : Option Nat :=
  let n := c.toNat
  if 65 ≤ n && n ≤ 90 then some (n - 65)
  else if 97 ≤ n && n ≤ 122 then some (n - 97 + 26)
  else if 48 ≤ n && n ≤ 57 then some (n - 48 + 52)
  else if n = 43 || n = 45 then some 62
  else if n = 47 || n = 95 then some 63
  else none

/-- Model of `base64.urlsafe_b64encode` on a byte list (output kept as the
list of base64 characters, padding included). -/
def b64encodeRaw : List Nat → List Char
  | [] => []
  | [b1] => [b64char (b1 / 4), b64char (b1 % 4 * 16), '=', '=']
  | [b1, b2] => [b64char (b1 / 4), b64char (b1 % 4 * 16 + b2 / 16), b64char (b2 % 16 * 4), '=']
  | b1 :: b2 :: b3 :: rest =>
    b64char (b1 / 4) :: b64char (b1 % 4 * 16 + b2 / 16) ::
      b64char (b2 % 16 * 4 + b3 / 64) :: b64char (b3 % 64) :: b64encodeRaw rest

/-- State machine of CPython `binascii.a2b_base64` in non-strict mode:
invalid characters are skipped; a padding character closes the current group
once at least two data characters are present and enough padding accumulated;
other padding characters are ignored.  Arguments: remaining input, quad
position, pending bits, consecutive-padding count, accumulator (reversed). -/
def a2b_base64 : List Char → Nat → Nat → Nat → List Nat → Option (List Nat)
  | [], 0, _, _, acc => some acc.reverse
  | [], _ + 1, _, _, _ => none
  | c :: rest, quadPos, leftchar, pads, acc =>
    if c = '=' then
      if 2 ≤ quadPos then
        if 4 ≤ quadPos + (pads + 1) then some acc.reverse
        else a2b_base64 rest quadPos leftchar (pads + 1) acc
      else a2b_base64 rest quadPos leftchar pads acc
    else
      match b64table c with
      | none => a2b_base64 rest quadPos leftchar pads acc
      | some v =>
        match quadPos with
        | 0 => a2b_base64 rest 1 v 0 acc
        | 1 => a2b_base64 rest 2 (v % 16) 0 ((leftchar * 4 + v / 16) :: acc)
        | 2 => a2b_base64 rest 3 (v % 4) 0 ((leftchar * 16 + v / 4) :: acc)
        | _ => a2b_base64 rest 0 0 0 ((leftchar * 64 + v) :: acc)

/-- Model of `base64.urlsafe_b64decode` on a character list. -/
def urlsafe_b64decode (l : List Char) : Option (List Nat) :=
  a2b_base64 l 0 0 0 []

/-- Padding-free base64 encoding, used to describe the result of stripping
the padding of `b64encodeRaw` in proofs. -/
def b64stripped : List Nat → List Char
  | [] => []
  | [b1] => [b64char (b1 / 4), b64char (b1 % 4 * 16)]
  | [b1, b2] => [b64char (b1 / 4), b64char (b1 % 4 * 16 + b2 / 16), b64char (b2 % 16 * 4)]
  | b1 :: b2 :: b3 :: rest =>
    b64char (b1 / 4) :: b64char (b1 % 4 * 16 + b2 / 16) ::
      b64char (b2 % 16 * 4 + b3 / 64) :: b64char (b3 % 64) :: b64stripped rest

/-- Number of padding characters `b64encodeRaw` appends. -/
def b64padLen : List Nat → Nat
  | [] => 0
  | [_] => 2
  | [_, _] => 1
  | _ :: _ :: _ :: rest => b64padLen rest

/-- Model of `str.rstrip` with argument `'='`. -/
def rstripEq : List Char → List Char
  | [] => []
  | c :: cs =>
    match rstripEq cs with
    | [] => if c = '=' then [] else [c]
    | x :: xs => c :: x :: xs

/-! ### UTF-8 codec (Python `str.encode` / `bytes.decode`) -/

def utf8EncodeChar (c : Char) : List Nat :=
  let n := c.toNat
  if n < 128 then [n]
  else if n < 2048 then [192 + n / 64, 128 + n % 64]
  else if n < 65536 then [224 + n / 4096, 128 + n / 64 % 64, 128 + n % 64]
  else [240 + n / 262144, 128 + n / 4096 % 64, 128 + n / 64 % 64, 128 + n % 64]

def utf8Encode : List Char → List Nat
  | [] => []
  | c :: cs => utf8EncodeChar c ++ utf8Encode cs

def contByte (b : Nat) : Bool := 128 ≤ b && b < 192

/-- Strict UTF-8 decoder: rejects bad lead/continuation bytes, overlong
forms, surrogates and out-of-range code points, exactly as Python
`bytes.decode()` does (errors become `none`).  The `fuel` argument only
drives the recursion; `utf8Decode` supplies the list length, which every
step strictly decreases, so the fuel is never exhausted. -/
def utf8DecodeAux : Nat → List Nat → Option (List Char)
  | _, [] => some []
  | 0, _ :: _ => none
  | fuel + 1, b :: bs =>
    if b < 128 then (utf8DecodeAux fuel bs).map (fun cs => Char.ofNat b :: cs)
    else if b < 192 then none
    else if b < 224 then
      match bs with
      | b2 :: bs2 =>
        if contByte b2 then
          let n := (b - 192) * 64 + (b2 - 128)
          if 128 ≤ n then (utf8DecodeAux fuel bs2).map (fun cs => Char.ofNat n :: cs)
          else none
        else none
      | [] => none
    else if b < 240 then
      match bs with
      | b2 :: b3 :: bs3 =>
        if contByte b2 && contByte b3 then
          let n := (b - 224) * 4096 + (b2 - 128) * 64 + (b3 - 128)
          if 2048 ≤ n ∧ ¬(55296 ≤ n ∧ n < 57344) then
            (utf8DecodeAux fuel bs3).map (fun cs => Char.ofNat n :: cs)
          else none
        else none
      | _ => none
    else if b < 248 then
      match bs with
      | b2 :: b3 :: b4 :: bs4 =>
        if contByte b2 && contByte b3 && contByte b4 then
          let n := (b - 240) * 262144 + (b2 - 128) * 4096 + (b3 - 128) * 64 + (b4 - 128)
          if 65536 ≤ n ∧ n < 1114112 then
            (utf8DecodeAux fuel bs4).map (fun cs => Char.ofNat n :: cs)
          else none
        else none
      | _ => none
    else none

/-- Model of Python `bytes.decode()` with the UTF-8 codec. -/
def utf8Decode (l : List Nat) : Option (List Char) :=
  utf8DecodeAux l.length l

/-! ### The short-code codec (`ShortLink.generate_short_code` /
`ShortLink.decode_short_code`, src/urlshortener/models.py lines 121-153) -/

inductive DecodeErr
  | invalidShort   -- ValueError("Short code is invalid")
  | sigMismatch    -- ValueError("Signature of short code is invalid")
  | decodeFailed   -- ValueError("Failed to decode the short code")
deriving DecidableEq

/-- Embedding of `ShortLink.generate_short_code`; `digest` is
`hmac.new(settings.SECRET_KEY.encode(), msg, hashlib.sha256).hexdigest()`
for the fixed server secret. -/
def generate_short_code (digest : List Char → List Char) (url : List Char) : List Char :=
  let encoded := rstripEq (b64encodeRaw (utf8Encode url))
  encoded ++ (digest encoded).take 4

/-- Embedding of `ShortLink.decode_short_code`. -/
def decode_short_code (digest : List Char → List Char) (code : List Char) :
    Except DecodeErr (List Char) :=
  if code.length ≤ 4 then .error .invalidShort
  else
    let encoded := code.take (code.length - 4)
    let signature := code.drop (code.length - 4)
    if signature ≠ (digest encoded).take 4 then .error .sigMismatch
    else
      match urlsafe_b64decode (encoded ++ List.replicate (4 - encoded.length % 4) '=') with
      | none => .error .decodeFailed
      | some bytes =>
        match utf8Decode bytes with
        | none => .error .decodeFailed
        | some url => .ok url

deriving instance DecidableEq for Except

/-- Embedding of `ShortLink.compress_url`; `zcompress` models
`zlib.compress`. -/
def compress_url (zcompress : List Nat → List Nat) (url : List Char) : List Char :=
  b64encodeRaw (zcompress (utf8Encode url))

/-- Embedding of `ShortLink.decompress_url`; `zdecompress` models
`zlib.decompress` (`none` for a raised error). -/
def decompress_url (zdecompress : List Nat → Option (List Nat)) (s : List Char) :
    Option (List Char) :=
  match urlsafe_b64decode s with
  | none => none
  | some bytes =>
    match zdecompress bytes with
    | none => none
    | some bs => utf8Decode bs

/-! ### Model of `urllib.parse` (CPython 3.11), as used by
`ShortLink.canonicalize_url` -/

/-- Characters of `urllib.parse.scheme_chars`. -/
def schemeChar (c : Char) : Bool :=
  isAsciiAlpha c || isAsciiDigit c || c = '+' || c = '-' || c = '.'

/-- Tab, CR and LF: the bytes `urlsplit` removes up front (WHATWG rule). -/
def tabCrLf (c : Char) : Bool := c = '\t' || c = '\r' || c = '\n'

/-- Split at the first occurrence of `sep`: `some (before, after)` with the
separator removed, or `none` when `sep` does not occur. -/
def splitOnFirst (sep : Char) : List Char → Option (List Char × List Char)
  | [] => none
  | c :: cs =>
    if c = sep then some ([], cs)
    else (splitOnFirst sep cs).map (fun p => (c :: p.1, p.2))

/-- Split at the last occurrence of `sep` (model of `str.rfind`). -/
def splitOnLast (sep : Char) (l : List Char) : Option (List Char × List Char) :=
  (splitOnFirst sep l.reverse).map (fun p => (p.2.reverse, p.1.reverse))

/-- Model of `str.split(sep, 1)` as used in `urlsplit`: when `sep` is absent
the whole string stays in the first component. -/
def splitOnFirstD (sep : Char) (url : List Char) : List Char × List Char :=
  match splitOnFirst sep url with
  | some (a, b) => (a, b)
  | none => (url, [])

structure SplitResult where
  scheme : List Char
  netloc : List Char
  path : List Char
  query : List Char
  fragment : List Char
deriving DecidableEq

structure ParseResult where
  scheme : List Char
  netloc : List Char
  path : List Char
  params : List Char
  query : List Char
  fragment : List Char
deriving DecidableEq

/-- Scheme detection step of `urlsplit`: a scheme is split off when a colon
occurs at position `i > 0`, the first character is an ASCII letter and all
characters before the colon are `scheme_chars`; the scheme is lowercased. -/
def splitScheme (url : List Char) : List Char × List Char :=
  match splitOnFirst ':' url with
  | none => ([], url)
  | some (pre, post) =>
    match pre with
    | [] => ([], url)
    | p :: ps =>
      if isAsciiAlpha p && (p :: ps).all schemeChar then (lowerList (p :: ps), post)
      else ([], url)

/-- Characters that end the netloc in `_splitnetloc`. -/
def nonSpecial (c : Char) : Bool := !(c = '/' || c = '?' || c = '#')

/-- Netloc step of `urlsplit`: after a leading `//`, the netloc runs to the
first of `/?#`.  (The `ValueError` for unbalanced IPv6 brackets is omitted.) -/
def splitNetloc (url : List Char) : List Char × List Char :=
  if url.take 2 = ['/', '/'] then
    ((url.drop 2).takeWhile nonSpecial, (url.drop 2).dropWhile nonSpecial)
  else ([], url)

/-- Model of `urllib.parse.urlsplit` (with `allow_fragments` true and no
default scheme, as in `canonicalize_url`). -/
def urlsplit (url0 : List Char) : SplitResult :=
  let url1 := url0.filter (fun c => !tabCrLf c)
  let sp := splitScheme url1
  let nl := splitNetloc sp.2
  let fr := splitOnFirstD '#' nl.2
  let pq := splitOnFirstD '?' fr.1
  ⟨sp.1, nl.1, pq.1, pq.2, fr.2⟩

/-- The `uses_params` scheme list of `urllib.parse`. -/
def usesParams : List (List Char) :=
  ["".toList, "ftp".toList, "hdl".toList, "prospero".toList, "http".toList,
   "imap".toList, "https".toList, "shttp".toList, "rtsp".toList, "rtspu".toList,
   "sip".toList, "sips".toList, "mms".toList, "sftp".toList, "tel".toList]

/-- The `uses_netloc` scheme list of `urllib.parse`. -/
def usesNetloc : List (List Char) :=
  ["".toList, "ftp".toList, "http".toList, "gopher".toList, "nntp".toList,
   "telnet".toList, "imap".toList, "wais".toList, "file".toList, "mms".toList,
   "https".toList, "shttp".toList, "snews".toList, "prospero".toList,
   "rtsp".toList, "rtspu".toList, "rsync".toList, "svn".toList,
   "svn+ssh".toList, "sftp".toList, "nfs".toList, "git".toList,
   "git+ssh".toList, "ws".toList, "wss".toList]

/-- Model of `urllib.parse._splitparams`: parameters start at the first `;`
after the last `/` (or anywhere when there is no `/`).  The caller,
`urlparse`, only invokes this when `;` occurs in the path. -/
def splitparams (url : List Char) : List Char × List Char :=
  match splitOnLast '/' url with
  | some (before, after) =>
    match splitOnFirst ';' after with
    | some (a, b) => (before ++ '/' :: a, b)
    | none => (url, [])
  | none =>
    match splitOnFirst ';' url with
    | some (a, b) => (a, b)
    | none => (url, [])

/-- Model of `urllib.parse.urlparse`. -/
def urlparse (url : List Char) : ParseResult :=
  let s := urlsplit url
  if s.scheme ∈ usesParams ∧ ';' ∈ s.path then
    let pp := splitparams s.path
    ⟨s.scheme, s.netloc, pp.1, pp.2, s.query, s.fragment⟩
  else ⟨s.scheme, s.netloc, s.path, [], s.query, s.fragment⟩

/-- Model of `urllib.parse.urlunsplit` (CPython 3.11: the `//` marker is
restored when there is a netloc, or when the scheme is in `uses_netloc` and
the path does not already start with `//`). -/
def urlunsplit (scheme netloc url query fragment : List Char) : List Char :=
  let url1 :=
    if netloc ≠ [] ∨ (scheme ≠ [] ∧ scheme ∈ usesNetloc ∧ url.take 2 ≠ ['/', '/']) then
      '/' :: '/' :: (netloc ++ (if url ≠ [] ∧ url.take 1 ≠ ['/'] then '/' :: url else url))
    else url
  let url2 := if scheme ≠ [] then scheme ++ ':' :: url1 else url1
  let url3 := if query ≠ [] then url2 ++ '?' :: query else url2
  if fragment ≠ [] then url3 ++ '#' :: fragment else url3

/-- Re-attachment of params to the path, as `urlunparse` does
(`url = "%s;%s" % (url, params)` when params is nonempty). -/
def recombParams (p par : List Char) : List Char :=
  if par ≠ [] then p ++ ';' :: par else p

/-- Model of `urllib.parse.urlunparse`. -/
def urlunparse (r : ParseResult) : List Char :=
  urlunsplit r.scheme r.netloc (recombParams r.path r.params) r.query r.fragment

/-- A parse result with query and fragment blanked, as `canonicalize_url`
builds via `_replace(query="", fragment="")`. -/
def clearQF (r : ParseResult) : ParseResult :=
  ⟨r.scheme, r.netloc, r.path, r.params, [], []⟩

/-- Invariants of every `urlparse` result, used to prove that
re-serializing and re-parsing is stable. -/
structure ParseInv (r : ParseResult) : Prop where
  scheme_chars : r.scheme.all schemeChar = true
  scheme_alpha : ∀ c cs, r.scheme = c :: cs → isAsciiAlpha c = true
  scheme_lower : lowerList r.scheme = r.scheme
  netloc_ok : r.netloc.all nonSpecial = true
  path_ok : r.path.all (fun c => !(c = '?' || c = '#')) = true
  params_ok : r.params.all (fun c => !(c = '?' || c = '#' || c = '/')) = true
  netloc_path : r.netloc ≠ [] → (r.path = [] ∧ r.params = []) ∨ r.path.take 1 = ['/']
  path_params : r.scheme ∈ usesParams → splitparams r.path = (r.path, [])
  params_scheme : r.params ≠ [] → r.scheme ∈ usesParams
  scheme_free : r.scheme = [] → r.netloc = [] →
    splitScheme (recombParams r.path r.params) = ([], recombParams r.path r.params)
  netloc_clean : ∀ c ∈ r.netloc, tabCrLf c = false
  path_clean : ∀ c ∈ r.path, tabCrLf c = false
  params_clean : ∀ c ∈ r.params, tabCrLf c = false

/-- Embedding of `ShortLink.canonicalize_url`
(src/urlshortener/models.py lines 155-162): parse, blank out query and
fragment, re-serialize. -/
def canonicalize_url (url : List Char) : List Char :=
  let p := urlparse url
  urlunparse ⟨p.scheme, p.netloc, p.path, p.params, [], []⟩

/-! ### State model: ShortLink rows, Redis, the Django cache -/

structure ShortLinkRow where
  original_url : List Char
  short_code : List Char
  campaign : Nat
  click_count : Nat
deriving DecidableEq

/-- Python errors that the embedded code can raise. -/
inductive PyErr
  | typeError
  | attributeError
  | keyError
deriving DecidableEq

/-- Module constant `REDIS_CLICK_KEY` of src/urlshortener/tasks.py line 9. -/
def REDIS_CLICK_KEY : String := "shortlink_click_count"

/-- Redis hash state: (key, field, value) triples. -/
def RedisHashes := List (String × List Char × Nat)

/-- Model of `redis_client.hincrby(key, field, 1)`. -/
def hincrby (key : String) (field : List Char) : List (String × List Char × Nat) →
    List (String × List Char × Nat)
  | [] => [(key, field, 1)]
  | e :: rest =>
    if e.1 = key ∧ e.2.1 = field then (key, field, e.2.2 + 1) :: rest
    else e :: hincrby key field rest

/-- Model of `redis_client.hgetall(key)`. -/
def hgetall (key : String) (st : List (String × List Char × Nat)) : List (List Char × Nat) :=
  st.filterMap (fun e => if e.1 = key then some (e.2.1, e.2.2) else none)

/-- Model of `redis_client.delete(key)`. -/
def redisDelete (key : String) (st : List (String × List Char × Nat)) :
    List (String × List Char × Nat) :=
  st.filter (fun e => e.1 ≠ key)

structure TaskState where
  redis : List (String × List Char × Nat)
  links : List ShortLinkRow
  clickLogs : Nat
deriving DecidableEq

/-- Embedding of the Celery task `log_click`
(src/urlshortener/tasks.py lines 42-71): create a ClickLog row (only its
count is tracked here) and `hincrby` the compressed URL's field of the hash
`REDIS_CLICK_KEY`. -/
def log_click (zcompress : List Nat → List Nat) (original_url : List Char) (st : TaskState) :
    Bool × TaskState :=
  (true,
    { st with
        clickLogs := st.clickLogs + 1,
        redis := hincrby REDIS_CLICK_KEY (compress_url zcompress original_url) st.redis })

/-- One `ShortLink.objects.filter(original_url=url).update(click_count=F+count)`. -/
def applyClickCount (url : List Char) (count : Nat) (links : List ShortLinkRow) :
    List ShortLinkRow :=
  links.map (fun l =>
    if l.original_url = url then { l with click_count := l.click_count + count } else l)

/-- Loop body of `count_log_click`: `none` models an exception escaping the
loop (the surrounding transaction rolls back). -/
def countLoop (zdecompress : List Nat → Option (List Nat)) :
    List (List Char × Nat) → List ShortLinkRow → Option (List ShortLinkRow)
  | [], links => some links
  | (field, count) :: rest, links =>
    match decompress_url zdecompress field with
    | none => none
    | some url =>
      if url = [] then countLoop zdecompress rest links
      else countLoop zdecompress rest (applyClickCount url count links)

/-- Embedding of the Celery task `count_log_click`
(src/urlshortener/tasks.py lines 13-38).  Note the key it reads:
`os.getenv("REDIS_CLICK_KEY", "click_count")`, modelled by the `env`
parameter — not the module constant `REDIS_CLICK_KEY` that `log_click`
writes. -/
def count_log_click (env : String → Option String)
    (zdecompress : List Nat → Option (List Nat)) (st : TaskState) : Bool × TaskState :=
  let redis_click_key := (env "REDIS_CLICK_KEY").getD "click_count"
  let click_data := hgetall redis_click_key st.redis
  if click_data = [] then (false, st)
  else
    match countLoop zdecompress click_data st.links with
    | none => (false, st)
    | some links2 =>
      (true, { st with links := links2, redis := redisDelete redis_click_key st.redis })

/-- N sequential `log_click` task executions for the same URL (the claim's
model of N concurrent clicks in one reconciliation window). -/
def iterateLogClicks (zcompress : List Nat → List Nat) (u : List Char) (st : TaskState) :
    Nat → TaskState
  | 0 => st
  | n + 1 => iterateLogClicks zcompress u (log_click zcompress u st).2 n

/-! ### BlockedIp.is_blocked_ip (src/urlshortener/models.py lines 209-235) -/

structure BlockEntry where
  ip_address : List Char
  is_active : Bool
  is_blocked_for_all_url : Bool
  blocked_links : List (List Char)
deriving DecidableEq

/-- The abuse-guard cache: keys holding the value `True`, with their
timeout in seconds. -/
def cacheGet (key : List Char) (cache : List (List Char × Nat)) : Bool :=
  cache.any (fun e => e.1 = key)

/-- Embedding of `BlockedIp.is_blocked_ip`.  After both cache misses the
code runs `blocked_ip = BlockedIp.objects.filter(...).exists()`, a `bool`,
and then evaluates `blocked_ip["is_blocked_for_all_url"]`: subscripting a
bool raises `TypeError`, which nothing catches. -/
def is_blocked_ip (ip original_url : List Char) (db : List BlockEntry)
    (cache : List (List Char × Nat)) : Except PyErr (Bool × List (List Char × Nat)) :=
  let cache_key_all := "blocked_ip_all_".toList ++ ip
  if cacheGet cache_key_all cache then .ok (true, cache)
  else
    let cache_key_link := "blocked_ip_link_".toList ++ ip ++ "_".toList ++ original_url
    if cacheGet cache_key_link cache then .ok (true, cache)
    else
      let blocked_ip : Bool := db.any (fun e => e.ip_address = ip && e.is_active)
      if !blocked_ip then .ok (false, cache)
      else .error .typeError

/-! ### RedirectView.get (src/urlshortener/views.py lines 59-90) -/

inductive HttpResp
  | redirect301 (url : List Char)
  | blocked403
  | badRequest400 (msg : String)
  | ok200 (body : List Char)
  | created201 (body : List Char)
  | serverError (e : PyErr)
deriving DecidableEq

/-- Messages of the `ValueError`s raised by `decode_short_code`. -/
def decodeErrMsg : DecodeErr → String
  | .invalidShort => "Short code is invalid"
  | .sigMismatch => "Signature of short code is invalid"
  | .decodeFailed => "Failed to decode the short code"

structure RedirectState where
  linkCache : List (List Char × List Char × Nat)
  blockDb : List BlockEntry
  blockCache : List (List Char × Nat)
  clicks : List (List Char)
deriving DecidableEq

/-- Model of `cache.get` on the resolution cache. -/
def linkCacheGet (key : List Char) (c : List (List Char × List Char × Nat)) :
    Option (List Char) :=
  (c.find? (fun e => e.1 = key)).map (fun e => e.2.1)

/-- Cache-miss path of `RedirectView.get`: decode inside `try`, abuse-guard
check, `cache.set(..., timeout=1200)`, enqueue of `log_click`, redirect.
`except ValueError` turns decode errors into a 400 response; a `TypeError`
from `is_blocked_ip` is not caught. -/
def redirect_decode_path (digest : List Char → List Char) (ip short_code : List Char)
    (st : RedirectState) : HttpResp × RedirectState :=
  match decode_short_code digest short_code with
  | .error e => (.badRequest400 (decodeErrMsg e), st)
  | .ok original_url =>
    match is_blocked_ip ip original_url st.blockDb st.blockCache with
    | .error e => (.serverError e, st)
    | .ok (true, bc) => (.blocked403, { st with blockCache := bc })
    | .ok (false, bc) =>
      (.redirect301 original_url,
        { st with
            blockCache := bc,
            linkCache := ("short_link_".toList ++ short_code, original_url, 1200)
              :: st.linkCache,
            clicks := st.clicks ++ [original_url] })

/-- Embedding of `RedirectView.get`. -/
def redirect_get (digest : List Char → List Char) (ip short_code : List Char)
    (st : RedirectState) : HttpResp × RedirectState :=
  match linkCacheGet ("short_link_".toList ++ short_code) st.linkCache with
  | some cached_url =>
    if cached_url ≠ [] then
      match is_blocked_ip ip cached_url st.blockDb st.blockCache with
      | .error e => (.serverError e, st)
      | .ok (true, bc) => (.blocked403, { st with blockCache := bc })
      | .ok (false, bc) =>
        (.redirect301 cached_url,
          { st with blockCache := bc, clicks := st.clicks ++ [cached_url] })
    else redirect_decode_path digest ip short_code st
  | none => redirect_decode_path digest ip short_code st

/-! ### ShortenURLAPI.post (src/urlshortener/views.py lines 93-143) -/

structure ShortenState where
  campaigns : List Nat
  links : List ShortLinkRow
deriving DecidableEq

/-- src/core/settings.py lines 124-131 define `ALLOWED_DOMAINS` (keys
DOMAIN_1..DOMAIN_3) and `DEFAULT_DOMAIN`, but no attribute `DOMAINS`; the
view's `settings.DOMAINS` therefore raises `AttributeError`. -/
def settings_DOMAINS : Option (List (String × List Char)) := none

/-- The `while ShortLink.objects.filter(short_code=generated_code).exists()`
retry loop of the shorten view, with explicit fuel (`none` models
non-termination within the given fuel). -/
def regenerateLoop (digest : List Char → List Char) (links : List ShortLinkRow)
    (original_url : List Char) : Nat → Option (List Char)
  | 0 => none
  | fuel + 1 =>
    let generated := generate_short_code digest original_url
    if links.any (fun l => l.short_code = generated) then
      regenerateLoop digest links original_url fuel
    else some generated

/-- Embedding of `ShortenURLAPI.post`; `isValid` models Django's
`URLValidator` on the percent-decoded URL (src/urlshortener/models.py lines
73-87).  The overall `none` result models the retry loop never returning. -/
def shorten_post (digest : List Char → List Char) (isValid : List Char → Bool)
    (url? : Option (List Char)) (campaign_id? : Option Nat) (fuel : Nat)
    (st : ShortenState) : Option (HttpResp × ShortenState) :=
  let is_valid_url := match url? with
    | none => false
    | some u => if u = [] then false else isValid u
  match url? with
  | none => some (.badRequest400 "URL is required", st)
  | some u =>
    if u = [] then some (.badRequest400 "URL is required", st)
    else if !is_valid_url then some (.badRequest400 "invalid url", st)
    else match campaign_id? with
    | none => some (.badRequest400 "Campaign ID is required", st)
    | some cid =>
      let canonical_url := canonicalize_url u
      if cid ∉ st.campaigns then some (.badRequest400 "Invalid campaign ID", st)
      else
        match st.links.find? (fun l => l.original_url = canonical_url && l.campaign = cid) with
        | some existing =>
          match settings_DOMAINS with
          | none => some (.serverError .attributeError, st)
          | some doms =>
            match doms.find? (fun d => d.1 = "local") with
            | none => some (.serverError .keyError, st)
            | some d => some (.ok200 (d.2 ++ '/' :: existing.short_code), st)
        | none =>
          let created : ShortLinkRow := ⟨canonical_url, generate_short_code digest canonical_url, cid, 0⟩
          match regenerateLoop digest (st.links ++ [created]) u fuel with
          | none => none
          | some generated =>
            some (.created201 generated,
              { st with links := st.links ++ [⟨canonical_url, generated, cid, 0⟩] })

/-! ## Theorems -/

/-! ### Character facts -/

theorem char_toNat_lt (c : Char) : c.toNat < 1114112 := by
  have h := c.valid
  unfold UInt32.isValidChar Nat.isValidChar at h
  unfold Char.toNat
  rcases h with h | h <;> omega

theorem char_not_surrogate (c : Char) : ¬(55296 ≤ c.toNat ∧ c.toNat < 57344) := by
  have h := c.valid
  unfold UInt32.isValidChar Nat.isValidChar at h
  unfold Char.toNat
  rcases h with h | h <;> omega

theorem char_toNat_ofNat (n : Nat) (h : n < 55296) : (Char.ofNat n).toNat = n := by
  have hv : n.isValidChar := Or.inl h
  rw [Char.ofNat, dif_pos hv]
  rfl

/-! ### base64 lemmas -/

theorem b64table_b64char : ∀ v, v < 64 → b64table (b64char v) = some v ∧ b64char v ≠ '=' := by
  decide

theorem a2b_eq_step (rest : List Char) (qp lc pads : Nat) (acc : List Nat) :
    a2b_base64 ('=' :: rest) qp lc pads acc =
      if 2 ≤ qp then
        if 4 ≤ qp + (pads + 1) then some acc.reverse
        else a2b_base64 rest qp lc (pads + 1) acc
      else a2b_base64 rest qp lc pads acc := by
  simp [a2b_base64]

theorem a2b_data0 (c : Char) (v : Nat) (hc : b64table c = some v) (hne : c ≠ '=')
    (rest : List Char) (lc pads : Nat) (acc : List Nat) :
    a2b_base64 (c :: rest) 0 lc pads acc = a2b_base64 rest 1 v 0 acc := by
  simp [a2b_base64, hne, hc]

theorem a2b_data1 (c : Char) (v : Nat) (hc : b64table c = some v) (hne : c ≠ '=')
    (rest : List Char) (lc pads : Nat) (acc : List Nat) :
    a2b_base64 (c :: rest) 1 lc pads acc =
      a2b_base64 rest 2 (v % 16) 0 ((lc * 4 + v / 16) :: acc) := by
  simp [a2b_base64, hne, hc]

theorem a2b_data2 (c : Char) (v : Nat) (hc : b64table c = some v) (hne : c ≠ '=')
    (rest : List Char) (lc pads : Nat) (acc : List Nat) :
    a2b_base64 (c :: rest) 2 lc pads acc =
      a2b_base64 rest 3 (v % 4) 0 ((lc * 16 + v / 4) :: acc) := by
  simp [a2b_base64, hne, hc]

theorem a2b_data3 (c : Char) (v : Nat) (hc : b64table c = some v) (hne : c ≠ '=')
    (rest : List Char) (lc pads : Nat) (acc : List Nat) :
    a2b_base64 (c :: rest) 3 lc pads acc =
      a2b_base64 rest 0 0 0 ((lc * 64 + v) :: acc) := by
  simp [a2b_base64, hne, hc]

theorem a2b_all_pads : ∀ (extra : List Char), (∀ c ∈ extra, c = '=') →
    ∀ lc pads acc, a2b_base64 extra 0 lc pads acc = some acc.reverse
  | [], _, _, _, _ => rfl
  | c :: rest, h, lc, pads, acc => by
    have hc : c = '=' := h c (List.mem_cons_self c rest)
    subst hc
    rw [a2b_eq_step]
    rw [if_neg (by omega)]
    exact a2b_all_pads rest (fun x hx => h x (List.mem_cons_of_mem _ hx)) lc pads acc

theorem a2b_encodeRaw : ∀ (bs : List Nat), (∀ b ∈ bs, b < 256) →
    ∀ (acc : List Nat) (extra : List Char), (∀ c ∈ extra, c = '=') →
    a2b_base64 (b64encodeRaw bs ++ extra) 0 0 0 acc = some (acc.reverse ++ bs)
  | [], _, acc, extra, hx => by
    simp only [b64encodeRaw, List.nil_append]
    rw [a2b_all_pads extra hx]
    simp
  | [b1], hb, acc, extra, hx => by
    have h1 : b1 < 256 := hb b1 (by simp)
    obtain ⟨t1, n1⟩ := b64table_b64char (b1 / 4) (by omega)
    obtain ⟨t2, n2⟩ := b64table_b64char (b1 % 4 * 16) (by omega)
    simp only [b64encodeRaw, List.cons_append, List.nil_append]
    rw [a2b_data0 _ _ t1 n1, a2b_data1 _ _ t2 n2, a2b_eq_step,
      if_pos (by omega), if_neg (by omega), a2b_eq_step, if_pos (by omega), if_pos (by omega)]
    have e1 : b1 / 4 * 4 + b1 % 4 * 16 / 16 = b1 := by omega
    rw [e1]
    simp
  | [b1, b2], hb, acc, extra, hx => by
    have h1 : b1 < 256 := hb b1 (by simp)
    have h2 : b2 < 256 := hb b2 (by simp)
    obtain ⟨t1, n1⟩ := b64table_b64char (b1 / 4) (by omega)
    obtain ⟨t2, n2⟩ := b64table_b64char (b1 % 4 * 16 + b2 / 16) (by omega)
    obtain ⟨t3, n3⟩ := b64table_b64char (b2 % 16 * 4) (by omega)
    simp only [b64encodeRaw, List.cons_append, List.nil_append]
    rw [a2b_data0 _ _ t1 n1, a2b_data1 _ _ t2 n2, a2b_data2 _ _ t3 n3,
      a2b_eq_step, if_pos (by omega), if_pos (by omega)]
    have e1 : b1 / 4 * 4 + (b1 % 4 * 16 + b2 / 16) / 16 = b1 := by omega
    have e2 : (b1 % 4 * 16 + b2 / 16) % 16 * 16 + b2 % 16 * 4 / 4 = b2 := by omega
    rw [e1, e2]
    simp
  | b1 :: b2 :: b3 :: rest, hb, acc, extra, hx => by
    have h1 : b1 < 256 := hb b1 (by simp)
    have h2 : b2 < 256 := hb b2 (by simp)
    have h3 : b3 < 256 := hb b3 (by simp)
    obtain ⟨t1, n1⟩ := b64table_b64char (b1 / 4) (by omega)
    obtain ⟨t2, n2⟩ := b64table_b64char (b1 % 4 * 16 + b2 / 16) (by omega)
    obtain ⟨t3, n3⟩ := b64table_b64char (b2 % 16 * 4 + b3 / 64) (by omega)
    obtain ⟨t4, n4⟩ := b64table_b64char (b3 % 64) (by omega)
    have ih := a2b_encodeRaw rest (fun b hbm => hb b (by simp [hbm]))
      ((b3 :: b2 :: b1 :: acc)) extra hx
    simp only [b64encodeRaw, List.cons_append]
    rw [a2b_data0 _ _ t1 n1, a2b_data1 _ _ t2 n2, a2b_data2 _ _ t3 n3, a2b_data3 _ _ t4 n4]
    have e1 : b1 / 4 * 4 + (b1 % 4 * 16 + b2 / 16) / 16 = b1 := by omega
    have e2 : (b1 % 4 * 16 + b2 / 16) % 16 * 16 + (b2 % 16 * 4 + b3 / 64) / 4 = b2 := by omega
    have e3 : (b2 % 16 * 4 + b3 / 64) % 4 * 64 + b3 % 64 = b3 := by omega
    rw [e1, e2, e3, ih]
    simp

theorem b64encodeRaw_eq : ∀ bs : List Nat,
    b64encodeRaw bs = b64stripped bs ++ List.replicate (b64padLen bs) '='
  | [] => rfl
  | [_] => rfl
  | [_, _] => rfl
  | b1 :: b2 :: b3 :: rest => by
    simp only [b64encodeRaw, b64stripped, b64padLen, List.cons_append]
    rw [b64encodeRaw_eq rest]

theorem rstripEq_replicate : ∀ k, rstripEq (List.replicate k '=') = []
  | 0 => rfl
  | k + 1 => by
    simp [List.replicate, rstripEq, rstripEq_replicate k]

theorem rstripEq_append_rep : ∀ (l : List Char) (k : Nat),
    rstripEq (l ++ List.replicate k '=') = rstripEq l
  | [], k => by rw [List.nil_append, rstripEq_replicate k]; rfl
  | c :: cs, k => by
    simp only [List.cons_append, rstripEq, List.append_eq, rstripEq_append_rep cs k]

theorem rstripEq_no_eq : ∀ l : List Char, (∀ c ∈ l, c ≠ '=') → rstripEq l = l
  | [], _ => rfl
  | c :: cs, h => by
    have ih := rstripEq_no_eq cs (fun x hx => h x (List.mem_cons_of_mem _ hx))
    simp only [rstripEq, ih]
    cases cs with
    | nil => rw [if_neg (h c (List.mem_cons_self c []))]
    | cons d ds => rfl

theorem b64stripped_ne_pad : ∀ bs : List Nat, (∀ b ∈ bs, b < 256) →
    ∀ c ∈ b64stripped bs, c ≠ '='
  | [], _, c, hc => by simp [b64stripped] at hc
  | [b1], hb, c, hc => by
    have h1 : b1 < 256 := hb b1 (by simp)
    simp only [b64stripped, List.mem_cons, List.not_mem_nil, or_false] at hc
    rcases hc with rfl | rfl
    · exact (b64table_b64char _ (by omega)).2
    · exact (b64table_b64char _ (by omega)).2
  | [b1, b2], hb, c, hc => by
    have h1 : b1 < 256 := hb b1 (by simp)
    have h2 : b2 < 256 := hb b2 (by simp)
    simp only [b64stripped, List.mem_cons, List.not_mem_nil, or_false] at hc
    rcases hc with rfl | rfl | rfl
    · exact (b64table_b64char _ (by omega)).2
    · exact (b64table_b64char _ (by omega)).2
    · exact (b64table_b64char _ (by omega)).2
  | b1 :: b2 :: b3 :: rest, hb, c, hc => by
    have h1 : b1 < 256 := hb b1 (by simp)
    have h2 : b2 < 256 := hb b2 (by simp)
    have h3 : b3 < 256 := hb b3 (by simp)
    simp only [b64stripped, List.mem_cons] at hc
    rcases hc with rfl | rfl | rfl | rfl | hm
    · exact (b64table_b64char _ (by omega)).2
    · exact (b64table_b64char _ (by omega)).2
    · exact (b64table_b64char _ (by omega)).2
    · exact (b64table_b64char _ (by omega)).2
    · exact b64stripped_ne_pad rest (fun b hbm => hb b (by simp [hbm])) c hm

theorem rstrip_encodeRaw (bs : List Nat) (h256 : ∀ b ∈ bs, b < 256) :
    rstripEq (b64encodeRaw bs) = b64stripped bs := by
  rw [b64encodeRaw_eq, rstripEq_append_rep, rstripEq_no_eq _ (b64stripped_ne_pad bs h256)]

theorem stripped_pad : ∀ bs : List Nat, ∃ extra : List Char, (∀ c ∈ extra, c = '=') ∧
    b64stripped bs ++ List.replicate (4 - (b64stripped bs).length % 4) '=' =
      b64encodeRaw bs ++ extra
  | [] => ⟨List.replicate 4 '=', by simp [List.mem_replicate], rfl⟩
  | [b1] => ⟨[], by simp, rfl⟩
  | [b1, b2] => ⟨[], by simp, rfl⟩
  | b1 :: b2 :: b3 :: rest => by
    obtain ⟨extra, hx, he⟩ := stripped_pad rest
    refine ⟨extra, hx, ?_⟩
    have hlen : (b64stripped (b1 :: b2 :: b3 :: rest)).length =
        4 + (b64stripped rest).length := by
      simp only [b64stripped, List.length_cons]
      omega
    have hmod : 4 - (b64stripped (b1 :: b2 :: b3 :: rest)).length % 4 =
        4 - (b64stripped rest).length % 4 := by
      rw [hlen]
      omega
    rw [hmod]
    simp only [b64stripped, b64encodeRaw, List.cons_append, List.cons.injEq, true_and]
    exact he

/-! ### UTF-8 lemmas -/

theorem utf8EncodeChar_ne_nil (c : Char) : utf8EncodeChar c ≠ [] := by
  simp only [utf8EncodeChar]
  split
  · simp
  · split
    · simp
    · split <;> simp

theorem utf8Encode_ne_nil {u : List Char} (hu : u ≠ []) : utf8Encode u ≠ [] := by
  cases u with
  | nil => exact absurd rfl hu
  | cons c cs =>
    simp only [utf8Encode, ne_eq, List.append_eq_nil]
    intro ⟨h1, _⟩
    exact utf8EncodeChar_ne_nil c h1

theorem utf8EncodeChar_lt256 (c : Char) : ∀ b ∈ utf8EncodeChar c, b < 256 := by
  have hlt := char_toNat_lt c
  intro b hb
  simp only [utf8EncodeChar] at hb
  split at hb
  · simp only [List.mem_cons, List.not_mem_nil, or_false] at hb
    omega
  · split at hb
    · simp only [List.mem_cons, List.not_mem_nil, or_false] at hb
      rcases hb with rfl | rfl <;> omega
    · split at hb
      · simp only [List.mem_cons, List.not_mem_nil, or_false] at hb
        rcases hb with rfl | rfl | rfl <;> omega
      · simp only [List.mem_cons, List.not_mem_nil, or_false] at hb
        rcases hb with rfl | rfl | rfl | rfl <;> omega

theorem utf8Encode_lt256 : ∀ u : List Char, ∀ b ∈ utf8Encode u, b < 256
  | [], b, hb => by simp [utf8Encode] at hb
  | c :: cs, b, hb => by
    simp only [utf8Encode, List.mem_append] at hb
    rcases hb with hb | hb
    · exact utf8EncodeChar_lt256 c b hb
    · exact utf8Encode_lt256 cs b hb

theorem utf8DecodeAux_nil : ∀ f, utf8DecodeAux f [] = some [] := fun f => by
  cases f <;> rfl

theorem utf8DecodeAux_irrel : ∀ (f1 : Nat) (l : List Nat) (f2 : Nat),
    l.length ≤ f1 → l.length ≤ f2 → utf8DecodeAux f1 l = utf8DecodeAux f2 l
  | 0, l, f2, h1, _ => by
    have hl : l = [] := by
      cases l with
      | nil => rfl
      | cons a as => simp at h1
    subst hl
    rw [utf8DecodeAux_nil, utf8DecodeAux_nil]
  | f1 + 1, [], f2, _, _ => by rw [utf8DecodeAux_nil, utf8DecodeAux_nil]
  | f1 + 1, b :: bs, f2, h1, h2 => by
    obtain ⟨f2p, rfl⟩ : ∃ k, f2 = k + 1 := by
      cases f2 with
      | zero => simp at h2
      | succ k => exact ⟨k, rfl⟩
    have hl1 : bs.length ≤ f1 := by simp at h1; omega
    have hl2 : bs.length ≤ f2p := by simp at h2; omega
    rw [utf8DecodeAux.eq_def]
    conv_rhs => rw [utf8DecodeAux.eq_def]
    simp only []
    by_cases c1 : b < 128
    · rw [if_pos c1, if_pos c1, utf8DecodeAux_irrel f1 bs f2p hl1 hl2]
    · rw [if_neg c1, if_neg c1]
      by_cases c2 : b < 192
      · rw [if_pos c2, if_pos c2]
      · rw [if_neg c2, if_neg c2]
        by_cases c3 : b < 224
        · rw [if_pos c3, if_pos c3]
          cases bs with
          | nil => rfl
          | cons b2 bs2 =>
            simp only []
            have g1 : bs2.length ≤ f1 := by simp at hl1; omega
            have g2 : bs2.length ≤ f2p := by simp at hl2; omega
            by_cases cc : contByte b2
            · rw [if_pos cc, if_pos cc]
              by_cases cn : 128 ≤ (b - 192) * 64 + (b2 - 128)
              · rw [if_pos cn, if_pos cn, utf8DecodeAux_irrel f1 bs2 f2p g1 g2]
              · rw [if_neg cn, if_neg cn]
            · rw [if_neg cc, if_neg cc]
        · rw [if_neg c3, if_neg c3]
          by_cases c4 : b < 240
          · rw [if_pos c4, if_pos c4]
            rcases bs with _ | ⟨b2, _ | ⟨b3, bs3⟩⟩
            · rfl
            · rfl
            · simp only []
              have g1 : bs3.length ≤ f1 := by simp at hl1; omega
              have g2 : bs3.length ≤ f2p := by simp at hl2; omega
              by_cases cc : contByte b2 && contByte b3
              · rw [if_pos cc, if_pos cc]
                by_cases cn : 2048 ≤ (b - 224) * 4096 + (b2 - 128) * 64 + (b3 - 128) ∧
                    ¬(55296 ≤ (b - 224) * 4096 + (b2 - 128) * 64 + (b3 - 128) ∧
                      (b - 224) * 4096 + (b2 - 128) * 64 + (b3 - 128) < 57344)
                · rw [if_pos cn, if_pos cn, utf8DecodeAux_irrel f1 bs3 f2p g1 g2]
                · rw [if_neg cn, if_neg cn]
              · rw [if_neg cc, if_neg cc]
          · rw [if_neg c4, if_neg c4]
            by_cases c5 : b < 248
            · rw [if_pos c5, if_pos c5]
              rcases bs with _ | ⟨b2, _ | ⟨b3, _ | ⟨b4, bs4⟩⟩⟩
              · rfl
              · rfl
              · rfl
              · simp only []
                have g1 : bs4.length ≤ f1 := by simp at hl1; omega
                have g2 : bs4.length ≤ f2p := by simp at hl2; omega
                by_cases cc : contByte b2 && contByte b3 && contByte b4
                · rw [if_pos cc, if_pos cc]
                  by_cases cn : 65536 ≤ (b - 240) * 262144 + (b2 - 128) * 4096 +
                      (b3 - 128) * 64 + (b4 - 128) ∧
                      (b - 240) * 262144 + (b2 - 128) * 4096 + (b3 - 128) * 64 + (b4 - 128)
                        < 1114112
                  · rw [if_pos cn, if_pos cn, utf8DecodeAux_irrel f1 bs4 f2p g1 g2]
                  · rw [if_neg cn, if_neg cn]
                · rw [if_neg cc, if_neg cc]
            · rw [if_neg c5, if_neg c5]

theorem utf8Decode_one (b : Nat) (bs : List Nat) (h : b < 128) :
    utf8Decode (b :: bs) = (utf8Decode bs).map (fun cs => Char.ofNat b :: cs) := by
  show utf8DecodeAux (bs.length + 1) (b :: bs) =
    (utf8DecodeAux bs.length bs).map (fun cs => Char.ofNat b :: cs)
  rw [utf8DecodeAux.eq_def]
  simp only []
  rw [if_pos h]

theorem utf8Decode_two (b b2 : Nat) (bs : List Nat) (h0 : 192 ≤ b) (h1 : b < 224) :
    utf8Decode (b :: b2 :: bs) =
      if contByte b2 then
        if 128 ≤ (b - 192) * 64 + (b2 - 128) then
          (utf8Decode bs).map (fun cs => Char.ofNat ((b - 192) * 64 + (b2 - 128)) :: cs)
        else none
      else none := by
  show utf8DecodeAux (bs.length + 1 + 1) (b :: b2 :: bs) = _
  rw [utf8DecodeAux.eq_def]
  simp only []
  rw [if_neg (by omega), if_neg (by omega), if_pos (by omega),
    utf8DecodeAux_irrel (bs.length + 1) bs bs.length (by omega) (by omega)]
  rfl

theorem utf8Decode_three (b b2 b3 : Nat) (bs : List Nat) (h0 : 224 ≤ b) (h1 : b < 240) :
    utf8Decode (b :: b2 :: b3 :: bs) =
      if contByte b2 && contByte b3 then
        if 2048 ≤ (b - 224) * 4096 + (b2 - 128) * 64 + (b3 - 128) ∧
            ¬(55296 ≤ (b - 224) * 4096 + (b2 - 128) * 64 + (b3 - 128) ∧
              (b - 224) * 4096 + (b2 - 128) * 64 + (b3 - 128) < 57344) then
          (utf8Decode bs).map
            (fun cs => Char.ofNat ((b - 224) * 4096 + (b2 - 128) * 64 + (b3 - 128)) :: cs)
        else none
      else none := by
  show utf8DecodeAux (bs.length + 1 + 1 + 1) (b :: b2 :: b3 :: bs) = _
  rw [utf8DecodeAux.eq_def]
  simp only []
  rw [if_neg (by omega), if_neg (by omega), if_neg (by omega), if_pos (by omega),
    utf8DecodeAux_irrel (bs.length + 1 + 1) bs bs.length (by omega) (by omega)]
  rfl

theorem utf8Decode_four (b b2 b3 b4 : Nat) (bs : List Nat) (h0 : 240 ≤ b) (h1 : b < 248) :
    utf8Decode (b :: b2 :: b3 :: b4 :: bs) =
      if contByte b2 && contByte b3 && contByte b4 then
        if 65536 ≤ (b - 240) * 262144 + (b2 - 128) * 4096 + (b3 - 128) * 64 + (b4 - 128) ∧
            (b - 240) * 262144 + (b2 - 128) * 4096 + (b3 - 128) * 64 + (b4 - 128) < 1114112 then
          (utf8Decode bs).map
            (fun cs => Char.ofNat
              ((b - 240) * 262144 + (b2 - 128) * 4096 + (b3 - 128) * 64 + (b4 - 128)) :: cs)
        else none
      else none := by
  show utf8DecodeAux (bs.length + 1 + 1 + 1 + 1) (b :: b2 :: b3 :: b4 :: bs) = _
  rw [utf8DecodeAux.eq_def]
  simp only []
  rw [if_neg (by omega), if_neg (by omega), if_neg (by omega), if_neg (by omega),
    if_pos (by omega),
    utf8DecodeAux_irrel (bs.length + 1 + 1 + 1) bs bs.length (by omega) (by omega)]
  rfl

theorem utf8Decode_encodeChar (c : Char) (bs : List Nat) :
    utf8Decode (utf8EncodeChar c ++ bs) = (utf8Decode bs).map (fun cs => c :: cs) := by
  have hlt := char_toNat_lt c
  have hsur := char_not_surrogate c
  by_cases h1 : c.toNat < 128
  · simp only [utf8EncodeChar, if_pos h1, List.cons_append, List.nil_append]
    rw [utf8Decode_one _ _ h1, Char.ofNat_toNat]
  · by_cases h2 : c.toNat < 2048
    · simp only [utf8EncodeChar, if_neg h1, if_pos h2, List.cons_append, List.nil_append]
      rw [utf8Decode_two _ _ _ (by omega) (by omega),
        if_pos (show contByte (128 + c.toNat % 64) = true by
          simp only [contByte, Bool.and_eq_true, decide_eq_true_eq]; omega)]
      have en : (192 + c.toNat / 64 - 192) * 64 + (128 + c.toNat % 64 - 128) = c.toNat := by
        omega
      rw [en, if_pos (by omega), Char.ofNat_toNat]
    · by_cases h3 : c.toNat < 65536
      · simp only [utf8EncodeChar, if_neg h1, if_neg h2, if_pos h3, List.cons_append,
          List.nil_append]
        rw [utf8Decode_three _ _ _ _ (by omega) (by omega),
          if_pos (show (contByte (128 + c.toNat / 64 % 64) && contByte (128 + c.toNat % 64))
            = true by
            simp only [contByte, Bool.and_eq_true, decide_eq_true_eq]
            omega)]
        have en : (224 + c.toNat / 4096 - 224) * 4096 + (128 + c.toNat / 64 % 64 - 128) * 64 +
            (128 + c.toNat % 64 - 128) = c.toNat := by omega
        rw [en, if_pos (by omega), Char.ofNat_toNat]
      · simp only [utf8EncodeChar, if_neg h1, if_neg h2, if_neg h3, List.cons_append,
          List.nil_append]
        rw [utf8Decode_four _ _ _ _ _ (by omega) (by omega),
          if_pos (show (contByte (128 + c.toNat / 4096 % 64) && contByte (128 + c.toNat / 64 % 64)
            && contByte (128 + c.toNat % 64)) = true by
            simp only [contByte, Bool.and_eq_true, decide_eq_true_eq]
            omega)]
        have en : (240 + c.toNat / 262144 - 240) * 262144 + (128 + c.toNat / 4096 % 64 - 128)
            * 4096 + (128 + c.toNat / 64 % 64 - 128) * 64 + (128 + c.toNat % 64 - 128)
            = c.toNat := by omega
        rw [en, if_pos (by omega), Char.ofNat_toNat]

theorem utf8Decode_encode : ∀ u : List Char, utf8Decode (utf8Encode u) = some u
  | [] => rfl
  | c :: cs => by
    rw [show utf8Encode (c :: cs) = utf8EncodeChar c ++ utf8Encode cs from rfl,
      utf8Decode_encodeChar, utf8Decode_encode cs]
    rfl

/-! ### Codec round-trip -/

theorem b64stripped_ne_nil : ∀ bs : List Nat, bs ≠ [] → b64stripped bs ≠ []
  | [], h, _ => absurd rfl h
  | [_], _, h => by simp [b64stripped] at h
  | [_, _], _, h => by simp [b64stripped] at h
  | _ :: _ :: _ :: _, _, h => by simp [b64stripped] at h

/-- Core round-trip fact: decoding the code generated for a nonempty URL
recovers the URL, for any 64-character digest function. -/
theorem decode_generate (digest : List Char → List Char)
    (h64 : ∀ m, (digest m).length = 64) (u : List Char) (hu : u ≠ []) :
    decode_short_code digest (generate_short_code digest u) = .ok u := by
  have h256 := utf8Encode_lt256 u
  have hstr : rstripEq (b64encodeRaw (utf8Encode u)) = b64stripped (utf8Encode u) :=
    rstrip_encodeRaw _ h256
  have hnil : b64stripped (utf8Encode u) ≠ [] :=
    b64stripped_ne_nil _ (utf8Encode_ne_nil hu)
  have hsig : ((digest (b64stripped (utf8Encode u))).take 4).length = 4 := by
    rw [List.length_take, h64]
    decide
  show decode_short_code digest
      (rstripEq (b64encodeRaw (utf8Encode u)) ++
        (digest (rstripEq (b64encodeRaw (utf8Encode u)))).take 4) = .ok u
  rw [hstr]
  set e := b64stripped (utf8Encode u) with hedef
  set s := (digest e).take 4 with hsdef
  have hlen : (e ++ s).length = e.length + 4 := by
    rw [List.length_append, hsig]
  have hpos : 0 < e.length := List.length_pos.mpr hnil
  have htake : (e ++ s).take ((e ++ s).length - 4) = e := by
    rw [hlen, Nat.add_sub_cancel, List.take_left]
  have hdrop : (e ++ s).drop ((e ++ s).length - 4) = s := by
    rw [hlen, Nat.add_sub_cancel, List.drop_left]
  simp only [decode_short_code]
  rw [if_neg (by omega), htake, hdrop, if_neg (by simp [hsdef])]
  obtain ⟨extra, hx, he⟩ := stripped_pad (utf8Encode u)
  rw [hedef, he]
  unfold urlsafe_b64decode
  rw [a2b_encodeRaw _ h256 [] extra hx]
  simp only [List.reverse_nil, List.nil_append]
  rw [utf8Decode_encode]

/-! ### Claim C1: codec round-trip -/

/-- C1: for every valid URL u (valid URLs are nonempty), decoding the short
code produced by encoding u returns u itself, including URLs whose
base64url encoding has length divisible by 4, where the decoder appends
four padding characters.  `digest` is the server's fixed
HMAC-SHA256-hexdigest function; the only fact used is that hex digests
have 64 characters. -/
theorem C1_decode_encode_roundtrip (digest : List Char → List Char)
    (h64 : ∀ m, (digest m).length = 64) (u : List Char) (hu : u ≠ []) :
    decode_short_code digest (generate_short_code digest u) = .ok u :=
  decode_generate digest h64 u hu

theorem C1_decode_encode_roundtrip_witness :
    (∀ m : List Char, ((fun _ : List Char => List.replicate 64 '0') m).length = 64) ∧
      ("http://ab".toList ≠ ([] : List Char)) ∧
      decode_short_code (fun _ => List.replicate 64 '0')
        (generate_short_code (fun _ => List.replicate 64 '0') "http://ab".toList) =
        .ok "http://ab".toList :=
  ⟨fun _ => by simp, by decide,
    C1_decode_encode_roundtrip (fun _ => List.replicate 64 '0') (fun _ => by simp)
      "http://ab".toList (by decide)⟩

/-! ### Claim C5: tamper detection -/

theorem decode_wrong_sig (digest : List Char → List Char) (u : List Char) (hu : u ≠ [])
    (sig : List Char) (hlen : sig.length = 4)
    (hne : sig ≠ (digest (rstripEq (b64encodeRaw (utf8Encode u)))).take 4) :
    decode_short_code digest (rstripEq (b64encodeRaw (utf8Encode u)) ++ sig) =
      .error .sigMismatch := by
  have h256 := utf8Encode_lt256 u
  have hstr : rstripEq (b64encodeRaw (utf8Encode u)) = b64stripped (utf8Encode u) :=
    rstrip_encodeRaw _ h256
  have hnil : b64stripped (utf8Encode u) ≠ [] :=
    b64stripped_ne_nil _ (utf8Encode_ne_nil hu)
  rw [hstr]
  rw [hstr] at hne
  set e := b64stripped (utf8Encode u) with hedef
  have hpos : 0 < e.length := List.length_pos.mpr hnil
  have hlen2 : (e ++ sig).length = e.length + 4 := by
    rw [List.length_append, hlen]
  have htake : (e ++ sig).take ((e ++ sig).length - 4) = e := by
    rw [hlen2, Nat.add_sub_cancel, List.take_left]
  have hdrop : (e ++ sig).drop ((e ++ sig).length - 4) = sig := by
    rw [hlen2, Nat.add_sub_cancel, List.drop_left]
  simp only [decode_short_code]
  rw [if_neg (by omega), htake, hdrop, if_pos hne]

/-- C5: for every valid URL and every index i into the 4-character
signature segment of the generated code, replacing the signature character
at i by any different character makes decoding fail with the
signature-mismatch error (it never returns a URL). -/
theorem C5_signature_tamper (digest : List Char → List Char)
    (h64 : ∀ m, (digest m).length = 64) (u : List Char) (hu : u ≠ [])
    (i : Nat) (hi : i < 4) (c : Char)
    (hne : some c ≠
      (generate_short_code digest u).get?
        ((generate_short_code digest u).length - 4 + i)) :
    decode_short_code digest
      ((generate_short_code digest u).set
        ((generate_short_code digest u).length - 4 + i) c) = .error .sigMismatch := by
  have hgen : generate_short_code digest u =
      rstripEq (b64encodeRaw (utf8Encode u)) ++
        (digest (rstripEq (b64encodeRaw (utf8Encode u)))).take 4 := rfl
  set e := rstripEq (b64encodeRaw (utf8Encode u)) with hedef
  set s := (digest e).take 4 with hsdef
  have hs4 : s.length = 4 := by
    rw [hsdef, List.length_take, h64]
    decide
  have hlen2 : (e ++ s).length = e.length + 4 := by
    rw [List.length_append, hs4]
  have hidx : (e ++ s).length - 4 + i = e.length + i := by omega
  rw [hgen, hidx] at hne ⊢
  rw [List.set_append_right]
  swap
  · omega
  have hidx2 : e.length + i - e.length = i := by omega
  rw [hidx2]
  apply decode_wrong_sig digest u hu _ (by rw [List.length_set, hs4])
  intro hcontra
  have hgot : (s.set i c).get? i = some c :=
    List.get?_set_eq_of_lt c (by omega)
  rw [hcontra] at hgot
  apply hne
  rw [List.get?_append_right (by omega)]
  have h5 : e.length + i - e.length = i := by omega
  rw [h5]
  exact hgot.symm

theorem C5_signature_tamper_witness :
    (∀ m : List Char, ((fun _ : List Char => List.replicate 64 '0') m).length = 64) ∧
      ("http://ab".toList ≠ ([] : List Char)) ∧ (0 < 4) ∧
      (some 'x' ≠
        (generate_short_code (fun _ => List.replicate 64 '0') "http://ab".toList).get?
          ((generate_short_code (fun _ => List.replicate 64 '0') "http://ab".toList).length
            - 4 + 0)) ∧
      decode_short_code (fun _ => List.replicate 64 '0')
        ((generate_short_code (fun _ => List.replicate 64 '0') "http://ab".toList).set
          ((generate_short_code (fun _ => List.replicate 64 '0') "http://ab".toList).length
            - 4 + 0) 'x') = .error .sigMismatch :=
  ⟨fun _ => by simp, by decide, by decide, by decide,
    C5_signature_tamper (fun _ => List.replicate 64 '0') (fun _ => by simp)
      "http://ab".toList (by decide) 0 (by decide) 'x' (by decide)⟩

/-! ### Claim C6: redirect of an undecodable code -/

/-- C6: when the resolution cache has no entry for the code and decoding
raises (invalid format or signature mismatch), the redirect view returns a
400 response carrying the error message and the state is untouched: no
cache write, no click enqueued. -/
theorem C6_redirect_bad_code (digest : List Char → List Char) (ip short_code : List Char)
    (st : RedirectState)
    (hmiss : linkCacheGet ("short_link_".toList ++ short_code) st.linkCache = none)
    (e : DecodeErr) (hdec : decode_short_code digest short_code = .error e) :
    redirect_get digest ip short_code st = (.badRequest400 (decodeErrMsg e), st) := by
  simp only [redirect_get, hmiss, redirect_decode_path, hdec]

theorem C6_redirect_bad_code_witness :
    (linkCacheGet ("short_link_".toList ++ "AAAAA".toList)
      (RedirectState.mk [] [] [] []).linkCache = none) ∧
      (decode_short_code (fun _ => List.replicate 64 '0') "AAAAA".toList =
        .error .sigMismatch) ∧
      redirect_get (fun _ => List.replicate 64 '0') "9.9.9.9".toList "AAAAA".toList
        (RedirectState.mk [] [] [] []) =
        (.badRequest400 (decodeErrMsg .sigMismatch), RedirectState.mk [] [] [] []) :=
  ⟨by decide, by decide,
    C6_redirect_bad_code (fun _ => List.replicate 64 '0') "9.9.9.9".toList "AAAAA".toList
      (RedirectState.mk [] [] [] []) (by decide) .sigMismatch (by decide)⟩

/-! ### Claim C3: the abuse guard crashes on a hit in the durable store -/

/-- C3 counterpart of what the code actually does: with both cache keys
absent and an active, globally-blocked BlockEntry for the IP present,
`is_blocked_ip` raises `TypeError` (from subscripting the boolean returned
by `.exists()`) instead of caching the verdict and returning blocked. -/
theorem C3_is_blocked_ip_raises (ip url : List Char) (db : List BlockEntry)
    (cache : List (List Char × Nat))
    (h1 : cacheGet ("blocked_ip_all_".toList ++ ip) cache = false)
    (h2 : cacheGet ("blocked_ip_link_".toList ++ ip ++ "_".toList ++ url) cache = false)
    (entry : BlockEntry) (hdb : entry ∈ db) (hip : entry.ip_address = ip)
    (hact : entry.is_active = true) (hglob : entry.is_blocked_for_all_url = true) :
    is_blocked_ip ip url db cache = .error .typeError := by
  have hany : db.any (fun e => e.ip_address = ip && e.is_active) = true := by
    rw [List.any_eq_true]
    exact ⟨entry, hdb, by rw [hip, hact]; simp⟩
  simp only [is_blocked_ip, h1, h2, hany]
  rfl

theorem C3_is_blocked_ip_raises_witness :
    (cacheGet ("blocked_ip_all_".toList ++ "1.2.3.4".toList) [] = false) ∧
      (BlockEntry.mk "1.2.3.4".toList true true [] ∈
        [BlockEntry.mk "1.2.3.4".toList true true []]) ∧
      is_blocked_ip "1.2.3.4".toList "http://x".toList
        [BlockEntry.mk "1.2.3.4".toList true true []] [] = .error .typeError :=
  ⟨by decide, by decide,
    C3_is_blocked_ip_raises "1.2.3.4".toList "http://x".toList
      [BlockEntry.mk "1.2.3.4".toList true true []] [] (by decide) (by decide)
      (BlockEntry.mk "1.2.3.4".toList true true []) (by decide) (by decide) (by decide)
      (by decide)⟩

/-! ### Claim C2: the click accumulator key mismatch -/

theorem iterateLogClicks_links (zc : List Nat → List Nat) (u : List Char) :
    ∀ (N : Nat) (st : TaskState), (iterateLogClicks zc u st N).links = st.links
  | 0, _ => rfl
  | n + 1, st => by
    rw [iterateLogClicks, iterateLogClicks_links zc u n]
    rfl

theorem hincrby_key (key : String) (field : List Char) :
    ∀ (r : List (String × List Char × Nat)),
    (∀ e ∈ r, e.1 = key) → ∀ e ∈ hincrby key field r, e.1 = key
  | [], _, e, he => by
    simp only [hincrby, List.mem_cons, List.not_mem_nil, or_false] at he
    subst he
    rfl
  | x :: rest, h, e, he => by
    rw [hincrby] at he
    by_cases hx : x.1 = key ∧ x.2.1 = field
    · rw [if_pos hx] at he
      rcases List.mem_cons.mp he with rfl | hm
      · rfl
      · exact h e (List.mem_cons_of_mem _ hm)
    · rw [if_neg hx] at he
      rcases List.mem_cons.mp he with rfl | hm
      · exact h e (List.mem_cons_self _ _)
      · exact hincrby_key key field rest (fun y hy => h y (List.mem_cons_of_mem _ hy)) e hm

theorem iterateLogClicks_keys (zc : List Nat → List Nat) (u : List Char) :
    ∀ (N : Nat) (st : TaskState), (∀ e ∈ st.redis, e.1 = REDIS_CLICK_KEY) →
    ∀ e ∈ (iterateLogClicks zc u st N).redis, e.1 = REDIS_CLICK_KEY
  | 0, _, h => h
  | n + 1, st, h => by
    rw [iterateLogClicks]
    exact iterateLogClicks_keys zc u n _ (hincrby_key _ _ _ h)

theorem hgetall_other (key : String) :
    ∀ (r : List (String × List Char × Nat)), (∀ e ∈ r, e.1 = REDIS_CLICK_KEY) →
    key ≠ REDIS_CLICK_KEY → hgetall key r = []
  | [], _, _ => rfl
  | x :: rest, h, hne => by
    have hx : x.1 = REDIS_CLICK_KEY := h x (List.mem_cons_self _ _)
    simp only [hgetall, List.filterMap_cons]
    rw [if_neg (by rw [hx]; exact fun hc => hne hc.symm)]
    exact hgetall_other key rest (fun y hy => h y (List.mem_cons_of_mem _ hy)) hne

/-- C2 counterpart of what the code actually does: `log_click` increments
fields of the Redis hash `shortlink_click_count` (the module constant),
but `count_log_click` reads and clears `os.getenv("REDIS_CLICK_KEY",
"click_count")`.  With the environment variable unset, after N clicks the
reconciliation run finds an empty accumulator, returns False, and leaves
every ShortLink row's click_count unchanged — an increase of 0, not N. -/
theorem C2_reconciliation_reads_wrong_key (zc : List Nat → List Nat)
    (zd : List Nat → Option (List Nat)) (u : List Char) (links : List ShortLinkRow)
    (logs : Nat) (N : Nat) (hN : 1 ≤ N) (env : String → Option String)
    (henv : env "REDIS_CLICK_KEY" = none) :
    count_log_click env zd (iterateLogClicks zc u ⟨[], links, logs⟩ N) =
      (false, iterateLogClicks zc u ⟨[], links, logs⟩ N) ∧
    (iterateLogClicks zc u ⟨[], links, logs⟩ N).links = links := by
  have hkeys : ∀ e ∈ (iterateLogClicks zc u ⟨[], links, logs⟩ N).redis,
      e.1 = REDIS_CLICK_KEY :=
    iterateLogClicks_keys zc u N _ (by intro e he; simp at he)
  have hempty : hgetall "click_count" (iterateLogClicks zc u ⟨[], links, logs⟩ N).redis
      = [] :=
    hgetall_other _ _ hkeys (by decide)
  constructor
  · simp only [count_log_click, henv, Option.getD, hempty]
    rfl
  · exact iterateLogClicks_links zc u N _

theorem C2_reconciliation_reads_wrong_key_witness :
    (1 ≤ 1) ∧ ((fun _ : String => (none : Option String)) "REDIS_CLICK_KEY" = none) ∧
      count_log_click (fun _ => none) some
        (iterateLogClicks id "http://a".toList
          ⟨[], [ShortLinkRow.mk "http://a".toList "c".toList 1 5], 0⟩ 1) =
        (false, iterateLogClicks id "http://a".toList
          ⟨[], [ShortLinkRow.mk "http://a".toList "c".toList 1 5], 0⟩ 1) ∧
      (iterateLogClicks id "http://a".toList
        ⟨[], [ShortLinkRow.mk "http://a".toList "c".toList 1 5], 0⟩ 1).links =
        [ShortLinkRow.mk "http://a".toList "c".toList 1 5] :=
  ⟨by decide, rfl,
    C2_reconciliation_reads_wrong_key id some "http://a".toList
      [ShortLinkRow.mk "http://a".toList "c".toList 1 5] 0 1 (by decide)
      (fun _ => none) rfl⟩

/-! ### Claim C9: losslessness of the click-accumulator key compression -/

/-- C9: the compression keying the click accumulator is lossless:
decompressing the compressed URL returns the URL.  `zc`/`zd` model
ated `zlib.compress`/`zlib.decompress` through their documented contract at
the compressed payload: decompression inverts compression and compressed
data are bytes. -/
theorem C9_compress_roundtrip (zc : List Nat → List Nat) (zd : List Nat → Option (List Nat))
    (u : List Char) (hzlib : zd (zc (utf8Encode u)) = some (utf8Encode u))
    (hbytes : ∀ b ∈ zc (utf8Encode u), b < 256) :
    decompress_url zd (compress_url zc u) = some u := by
  simp only [compress_url, decompress_url, urlsafe_b64decode]
  have h := a2b_encodeRaw (zc (utf8Encode u)) hbytes [] [] (by intro c hc; simp at hc)
  rw [List.append_nil] at h
  rw [h]
  simp only [List.reverse_nil, List.nil_append, hzlib]
  exact utf8Decode_encode u

theorem C9_compress_roundtrip_witness :
    ((fun bs : List Nat => some bs) (id (utf8Encode "http://a".toList)) =
      some (utf8Encode "http://a".toList)) ∧
      (∀ b ∈ id (utf8Encode "http://a".toList), b < 256) ∧
      decompress_url (fun bs => some bs) (compress_url id "http://a".toList) =
        some "http://a".toList :=
  ⟨rfl, by decide,
    C9_compress_roundtrip id (fun bs => some bs) "http://a".toList rfl (by decide)⟩

/-! ### Claim C10: deterministic code generation and the retry loop -/

/-- C10: `generate_short_code` is a pure function of the URL for the fixed
server secret, so whenever the shorten view's uniqueness retry loop
returns a code at all, it is the very code of the first attempt — the loop
can never produce a different one. -/
theorem C10_retry_loop_same_code (digest : List Char → List Char)
    (links : List ShortLinkRow) (u : List Char) :
    ∀ (fuel : Nat) (code : List Char), regenerateLoop digest links u fuel = some code →
      code = generate_short_code digest u
  | 0, code, h => by simp [regenerateLoop] at h
  | fuel + 1, code, h => by
    rw [regenerateLoop] at h
    by_cases hc : links.any (fun l => l.short_code = generate_short_code digest u)
    · rw [if_pos hc] at h
      exact C10_retry_loop_same_code digest links u fuel code h
    · rw [if_neg hc] at h
      exact (Option.some_inj.mp h).symm

theorem C10_retry_loop_same_code_witness :
    (regenerateLoop (fun _ => List.replicate 64 '0') [] "http://a".toList 1 =
      some (generate_short_code (fun _ => List.replicate 64 '0') "http://a".toList)) ∧
      generate_short_code (fun _ => List.replicate 64 '0') "http://a".toList =
        generate_short_code (fun _ => List.replicate 64 '0') "http://a".toList :=
  ⟨by decide,
    C10_retry_loop_same_code (fun _ => List.replicate 64 '0') [] "http://a".toList 1
      (generate_short_code (fun _ => List.replicate 64 '0') "http://a".toList) (by decide)⟩

/-! ### Claim C7: shorten on an existing (url, campaign) pair -/

/-- C7 counterpart of what the code actually does: when the canonical
(url, campaign) pair already has a ShortLink, the shorten view evaluates
`settings.DOMAINS["local"]`, but src/core/settings.py defines only
`ALLOWED_DOMAINS` (keys DOMAIN_1..3) and `DEFAULT_DOMAIN`; the attribute
lookup raises `AttributeError`, so the request fails (HTTP 500) instead of
returning 200 with the domain-prefixed short URL. -/
theorem C7_existing_link_raises (digest : List Char → List Char)
    (isValid : List Char → Bool) (url : List Char) (cid : Nat) (fuel : Nat)
    (st : ShortenState) (existing : ShortLinkRow)
    (hu : url ≠ []) (hval : isValid url = true) (hcid : cid ∈ st.campaigns)
    (hfind : st.links.find?
      (fun l => l.original_url = canonicalize_url url && l.campaign = cid) = some existing) :
    shorten_post digest isValid (some url) (some cid) fuel st =
      some (.serverError .attributeError, st) := by
  simp only [shorten_post, hval, hfind, settings_DOMAINS, if_neg hu]
  rw [if_neg (show ¬((!true : Bool) = true) by decide),
    if_neg (show ¬cid ∉ st.campaigns from not_not_intro hcid)]

theorem C7_existing_link_raises_witness :
    ("http://a".toList ≠ ([] : List Char)) ∧
      ((fun _ : List Char => true) "http://a".toList = true) ∧ (1 ∈ [1]) ∧
      ([ShortLinkRow.mk "http://a".toList "c".toList 1 0].find?
        (fun l => l.original_url = canonicalize_url "http://a".toList && l.campaign = 1) =
        some (ShortLinkRow.mk "http://a".toList "c".toList 1 0)) ∧
      shorten_post (fun _ => List.replicate 64 '0') (fun _ => true)
        (some "http://a".toList) (some 1) 1
        ⟨[1], [ShortLinkRow.mk "http://a".toList "c".toList 1 0]⟩ =
        some (.serverError .attributeError,
          ⟨[1], [ShortLinkRow.mk "http://a".toList "c".toList 1 0]⟩) :=
  ⟨by decide, rfl, by decide, by decide,
    C7_existing_link_raises (fun _ => List.replicate 64 '0') (fun _ => true)
      "http://a".toList 1 1 ⟨[1], [ShortLinkRow.mk "http://a".toList "c".toList 1 0]⟩
      (ShortLinkRow.mk "http://a".toList "c".toList 1 0) (by decide) rfl (by decide)
      (by decide)⟩

/-! ### Claim C4: shorten stores the canonical URL but encodes the raw one -/

/-- C4 counterpart of what the code actually does on the spec's scenario
input: shortening a URL with query and fragment stores the canonical URL
(query and fragment stripped) in the new row, but the short code the view
generates and returns encodes the raw submitted URL
(`generate_short_code(original_url)` at src/urlshortener/views.py line
136), so decoding the returned code yields the raw URL, not the canonical
one. -/
theorem C4_returned_code_encodes_raw (digest : List Char → List Char)
    (h64 : ∀ m, (digest m).length = 64) (isValid : List Char → Bool)
    (campaigns : List Nat) (cid : Nat) (fuel : Nat)
    (hval : isValid "https://example.com/a?x=1#frag".toList = true)
    (hcid : cid ∈ campaigns) :
    canonicalize_url "https://example.com/a?x=1#frag".toList =
      "https://example.com/a".toList ∧
    shorten_post digest isValid (some "https://example.com/a?x=1#frag".toList) (some cid)
        (fuel + 1) ⟨campaigns, []⟩ =
      some (.created201
          (generate_short_code digest "https://example.com/a?x=1#frag".toList),
        ⟨campaigns, [⟨"https://example.com/a".toList,
          generate_short_code digest "https://example.com/a?x=1#frag".toList, cid, 0⟩]⟩) ∧
    decode_short_code digest
        (generate_short_code digest "https://example.com/a?x=1#frag".toList) =
      .ok "https://example.com/a?x=1#frag".toList ∧
    "https://example.com/a?x=1#frag".toList ≠ "https://example.com/a".toList := by
  have hcanon : canonicalize_url "https://example.com/a?x=1#frag".toList =
      "https://example.com/a".toList := by decide
  have hne : generate_short_code digest "https://example.com/a".toList ≠
      generate_short_code digest "https://example.com/a?x=1#frag".toList := by
    intro h
    have h1 := decode_generate digest h64 "https://example.com/a".toList (by decide)
    have h2 := decode_generate digest h64 "https://example.com/a?x=1#frag".toList (by decide)
    rw [h, h2] at h1
    have : "https://example.com/a?x=1#frag".toList = "https://example.com/a".toList :=
      Except.ok.inj h1
    exact absurd this (by decide)
  refine ⟨hcanon, ?_,
    decode_generate digest h64 "https://example.com/a?x=1#frag".toList (by decide),
    by decide⟩
  simp only [shorten_post, hval, if_neg (show ¬("https://example.com/a?x=1#frag".toList
    = ([] : List Char)) by decide)]
  rw [if_neg (show ¬((!true : Bool) = true) by decide),
    if_neg (show ¬cid ∉ campaigns from not_not_intro hcid)]
  simp only [List.find?_nil, List.nil_append, hcanon]
  rw [regenerateLoop]
  rw [if_neg (show ¬([(⟨"https://example.com/a".toList,
      generate_short_code digest "https://example.com/a".toList, cid, 0⟩ :
        ShortLinkRow)].any
      (fun l => l.short_code =
        generate_short_code digest "https://example.com/a?x=1#frag".toList) = true) by
    simp only [List.any_cons, List.any_nil, Bool.or_false, decide_eq_true_eq]
    exact hne)]

theorem C4_returned_code_encodes_raw_witness :
    ((fun _ : List Char => true) "https://example.com/a?x=1#frag".toList = true) ∧
      (1 ∈ [1]) ∧
      (canonicalize_url "https://example.com/a?x=1#frag".toList =
        "https://example.com/a".toList) ∧
      (decode_short_code (fun _ => List.replicate 64 '0')
        (generate_short_code (fun _ => List.replicate 64 '0')
          "https://example.com/a?x=1#frag".toList) =
        .ok "https://example.com/a?x=1#frag".toList) :=
  ⟨rfl, by decide, by decide,
    (C4_returned_code_encodes_raw (fun _ => List.replicate 64 '0') (fun _ => by simp)
      (fun _ => true) [1] 1 0 rfl (by decide)).2.2.1⟩

/-! ### Toolbox for the urllib.parse proofs -/

theorem filter_not_tab_id (l : List Char) (h : ∀ c ∈ l, tabCrLf c = false) :
    l.filter (fun c => !tabCrLf c) = l :=
  List.filter_eq_self.mpr (fun a ha => by rw [h a ha]; rfl)

theorem splitOnFirst_eq_none (sep : Char) :
    ∀ l : List Char, (∀ c ∈ l, c ≠ sep) → splitOnFirst sep l = none
  | [], _ => rfl
  | c :: cs, h => by
    rw [splitOnFirst, if_neg (h c (List.mem_cons_self c cs)),
      splitOnFirst_eq_none sep cs (fun x hx => h x (List.mem_cons_of_mem _ hx))]
    rfl

theorem splitOnFirst_none_spec (sep : Char) :
    ∀ l : List Char, splitOnFirst sep l = none → ∀ c ∈ l, c ≠ sep
  | [], _, c, hc => by simp at hc
  | c :: cs, h, x, hx => by
    rw [splitOnFirst] at h
    by_cases hc : c = sep
    · rw [if_pos hc] at h
      exact absurd h (by simp)
    · rw [if_neg hc] at h
      rcases List.mem_cons.mp hx with rfl | hm
      · exact hc
      · cases hrec : splitOnFirst sep cs with
        | none => exact splitOnFirst_none_spec sep cs hrec x hm
        | some p => rw [hrec] at h; exact absurd h (by simp)

theorem splitOnFirst_append_sep (sep : Char) :
    ∀ (l1 l2 : List Char), (∀ c ∈ l1, c ≠ sep) →
    splitOnFirst sep (l1 ++ sep :: l2) = some (l1, l2)
  | [], l2, _ => by simp [splitOnFirst]
  | c :: cs, l2, h => by
    rw [List.cons_append, splitOnFirst, if_neg (h c (List.mem_cons_self c cs)),
      splitOnFirst_append_sep sep cs l2 (fun x hx => h x (List.mem_cons_of_mem _ hx))]
    rfl

theorem splitOnFirst_spec (sep : Char) :
    ∀ (l a b : List Char), splitOnFirst sep l = some (a, b) →
    l = a ++ sep :: b ∧ ∀ c ∈ a, c ≠ sep
  | [], a, b, h => by simp [splitOnFirst] at h
  | c :: cs, a, b, h => by
    rw [splitOnFirst] at h
    by_cases hc : c = sep
    · rw [if_pos hc] at h
      simp only [Option.some_inj, Prod.mk.injEq] at h
      obtain ⟨rfl, rfl⟩ := h
      subst hc
      exact ⟨rfl, by simp⟩
    · rw [if_neg hc] at h
      cases hrec : splitOnFirst sep cs with
      | none => rw [hrec] at h; exact absurd h (by simp)
      | some p =>
        rw [hrec] at h
        simp only [Option.map_some', Option.some_inj] at h
        obtain ⟨ha, rfl⟩ : a = c :: p.1 ∧ p.2 = b := by
          constructor
          · exact (congrArg Prod.fst h).symm
          · exact congrArg Prod.snd h
        obtain ⟨hl, hmem⟩ := splitOnFirst_spec sep cs p.1 p.2 (by rw [hrec])
        subst ha
        refine ⟨by rw [List.cons_append, ← hl], ?_⟩
        intro x hx
        rcases List.mem_cons.mp hx with rfl | hm
        · exact hc
        · exact hmem x hm

theorem splitOnFirst_extend (sep : Char) :
    ∀ (l t a b : List Char), splitOnFirst sep l = some (a, b) →
    splitOnFirst sep (l ++ t) = some (a, b ++ t) := by
  intro l t a b h
  obtain ⟨hl, hmem⟩ := splitOnFirst_spec sep l a b h
  subst hl
  rw [List.append_assoc, List.cons_append]
  exact splitOnFirst_append_sep sep a (b ++ t) hmem

theorem splitOnLast_append_sep (sep : Char) (l1 l2 : List Char)
    (h : ∀ c ∈ l2, c ≠ sep) : splitOnLast sep (l1 ++ sep :: l2) = some (l1, l2) := by
  rw [splitOnLast]
  rw [show (l1 ++ sep :: l2).reverse = l2.reverse ++ sep :: l1.reverse by
    simp [List.reverse_append]]
  rw [splitOnFirst_append_sep sep l2.reverse l1.reverse
    (fun c hc => h c (List.mem_reverse.mp hc))]
  simp

theorem splitOnLast_eq_none (sep : Char) (l : List Char) (h : ∀ c ∈ l, c ≠ sep) :
    splitOnLast sep l = none := by
  rw [splitOnLast, splitOnFirst_eq_none sep l.reverse
    (fun c hc => h c (List.mem_reverse.mp hc))]
  rfl

theorem splitOnLast_none_spec (sep : Char) (l : List Char)
    (h : splitOnLast sep l = none) : ∀ c ∈ l, c ≠ sep := by
  rw [splitOnLast] at h
  cases hrec : splitOnFirst sep l.reverse with
  | none =>
    intro c hc
    exact splitOnFirst_none_spec sep l.reverse hrec c (List.mem_reverse.mpr hc)
  | some p => rw [hrec] at h; exact absurd h (by simp)

theorem splitOnLast_spec (sep : Char) (l a b : List Char)
    (h : splitOnLast sep l = some (a, b)) : l = a ++ sep :: b ∧ ∀ c ∈ b, c ≠ sep := by
  rw [splitOnLast] at h
  cases hrec : splitOnFirst sep l.reverse with
  | none => rw [hrec] at h; exact absurd h (by simp)
  | some p =>
    rw [hrec] at h
    simp only [Option.map_some', Option.some_inj] at h
    obtain ⟨ha, hb⟩ : p.2.reverse = a ∧ p.1.reverse = b := by
      constructor
      · exact congrArg Prod.fst h
      · exact congrArg Prod.snd h
    obtain ⟨hl, hmem⟩ := splitOnFirst_spec sep l.reverse p.1 p.2 (by rw [hrec])
    constructor
    · have := congrArg List.reverse hl
      rw [List.reverse_reverse] at this
      rw [this]
      simp [List.reverse_append, ha, hb]
    · intro c hc
      exact hmem c (by rw [← hb] at hc; exact List.mem_reverse.mp hc)

theorem splitOnFirstD_absent (sep : Char) (l : List Char) (h : ∀ c ∈ l, c ≠ sep) :
    splitOnFirstD sep l = (l, []) := by
  rw [splitOnFirstD, splitOnFirst_eq_none sep l h]

theorem splitOnFirstD_decomp (sep : Char) (l : List Char) :
    ∃ t, l = (splitOnFirstD sep l).1 ++ t := by
  rw [splitOnFirstD]
  cases hrec : splitOnFirst sep l with
  | none => exact ⟨[], by simp⟩
  | some p =>
    obtain ⟨hl, _⟩ := splitOnFirst_spec sep l p.1 p.2 (by rw [hrec])
    exact ⟨sep :: p.2, hl⟩

theorem splitOnFirstD_fst_ne (sep : Char) (l : List Char) :
    ∀ c ∈ (splitOnFirstD sep l).1, c ≠ sep := by
  rw [splitOnFirstD]
  cases hrec : splitOnFirst sep l with
  | none => exact splitOnFirst_none_spec sep l hrec
  | some p =>
    obtain ⟨_, hmem⟩ := splitOnFirst_spec sep l p.1 p.2 (by rw [hrec])
    exact hmem

theorem splitOnFirstD_cons (sep c : Char) (l : List Char) :
    splitOnFirstD sep (c :: l) =
      if c = sep then ([], l)
      else (c :: (splitOnFirstD sep l).1, (splitOnFirstD sep l).2) := by
  by_cases hc : c = sep
  · rw [if_pos hc, splitOnFirstD, splitOnFirst, if_pos hc]
  · rw [if_neg hc, splitOnFirstD, splitOnFirst, if_neg hc, splitOnFirstD]
    cases splitOnFirst sep l with
    | none => rfl
    | some p => rfl

theorem mem_of_append_decomp {l p t : List Char} (h : l = p ++ t) :
    ∀ c ∈ p, c ∈ l := by
  intro c hc
  rw [h]
  exact List.mem_append_left t hc

theorem schemeChar_facts (c : Char) (h : schemeChar c = true) :
    c ≠ ':' ∧ c ≠ '#' ∧ c ≠ '?' ∧ c ≠ '/' ∧ tabCrLf c = false := by
  refine ⟨?_, ?_, ?_, ?_, ?_⟩
  · intro hc; subst hc; exact absurd h (by decide)
  · intro hc; subst hc; exact absurd h (by decide)
  · intro hc; subst hc; exact absurd h (by decide)
  · intro hc; subst hc; exact absurd h (by decide)
  · by_cases h1 : c = '\t'
    · subst h1; exact absurd h (by decide)
    · by_cases h2 : c = '\r'
      · subst h2; exact absurd h (by decide)
      · by_cases h3 : c = '\n'
        · subst h3; exact absurd h (by decide)
        · simp [tabCrLf, h1, h2, h3]

theorem nonSpecial_facts (c : Char) (h : nonSpecial c = true) :
    c ≠ '/' ∧ c ≠ '?' ∧ c ≠ '#' := by
  refine ⟨?_, ?_, ?_⟩ <;> intro hc <;> subst hc <;> exact absurd h (by decide)

theorem lowerChar_toNat_upper (c : Char) (h : isAsciiUpper c = true) :
    (lowerChar c).toNat = c.toNat + 32 := by
  simp only [isAsciiUpper, Bool.and_eq_true, decide_eq_true_eq] at h
  rw [lowerChar, if_pos (by simp [isAsciiUpper]; omega)]
  exact char_toNat_ofNat _ (by omega)

theorem lowerChar_eq_of_not_upper (c : Char) (h : isAsciiUpper c = false) :
    lowerChar c = c := by
  rw [lowerChar, if_neg (by rw [h]; simp)]

theorem schemeChar_lowerChar (c : Char) (h : schemeChar c = true) :
    schemeChar (lowerChar c) = true := by
  by_cases hu : isAsciiUpper c = true
  · have ht := lowerChar_toNat_upper c hu
    simp only [isAsciiUpper, Bool.and_eq_true, decide_eq_true_eq] at hu
    have hlow : isAsciiLower (lowerChar c) = true := by
      simp only [isAsciiLower, ht, Bool.and_eq_true, decide_eq_true_eq]
      omega
    simp [schemeChar, isAsciiAlpha, hlow]
  · rw [lowerChar_eq_of_not_upper c (by simpa using hu)]
    exact h

theorem isAsciiAlpha_lowerChar (c : Char) (h : isAsciiAlpha c = true) :
    isAsciiAlpha (lowerChar c) = true := by
  by_cases hu : isAsciiUpper c = true
  · have ht := lowerChar_toNat_upper c hu
    simp only [isAsciiUpper, Bool.and_eq_true, decide_eq_true_eq] at hu
    have hlow : isAsciiLower (lowerChar c) = true := by
      simp only [isAsciiLower, ht, Bool.and_eq_true, decide_eq_true_eq]
      omega
    simp [isAsciiAlpha, hlow]
  · rw [lowerChar_eq_of_not_upper c (by simpa using hu)]
    exact h

theorem lowerChar_idem (c : Char) : lowerChar (lowerChar c) = lowerChar c := by
  by_cases hu : isAsciiUpper c = true
  · have ht := lowerChar_toNat_upper c hu
    simp only [isAsciiUpper, Bool.and_eq_true, decide_eq_true_eq] at hu
    apply lowerChar_eq_of_not_upper
    simp only [isAsciiUpper, ht, Bool.and_eq_false_iff, decide_eq_false_iff_not]
    omega
  · rw [lowerChar_eq_of_not_upper c (by simpa using hu),
      lowerChar_eq_of_not_upper c (by simpa using hu)]

theorem lowerList_idem (l : List Char) : lowerList (lowerList l) = lowerList l := by
  simp only [lowerList, List.map_map]
  exact List.map_congr_left (fun c _ => lowerChar_idem c)

theorem takeWhile_append_stop (p : Char → Bool) :
    ∀ (l1 l2 : List Char), (∀ c ∈ l1, p c = true) →
    (l2 = [] ∨ ∃ c t, l2 = c :: t ∧ p c = false) →
    (l1 ++ l2).takeWhile p = l1 ∧ (l1 ++ l2).dropWhile p = l2
  | [], l2, _, h2 => by
    rcases h2 with rfl | ⟨c, t, rfl, hc⟩
    · exact ⟨rfl, rfl⟩
    · simp [List.takeWhile_cons, List.dropWhile_cons, hc]
  | a :: l1, l2, h1, h2 => by
    have ha : p a = true := h1 a (List.mem_cons_self a l1)
    obtain ⟨ih1, ih2⟩ := takeWhile_append_stop p l1 l2
      (fun c hc => h1 c (List.mem_cons_of_mem _ hc)) h2
    constructor
    · rw [List.cons_append, List.takeWhile_cons, if_pos ha, ih1]
    · rw [List.cons_append, List.dropWhile_cons, if_pos ha, ih2]

/-! ### Stage lemmas for urlsplit -/

theorem splitScheme_spec (l : List Char) :
    (splitScheme l = ([], l)) ∨
    (∃ c cs post, splitOnFirst ':' l = some (c :: cs, post) ∧ isAsciiAlpha c = true ∧
      (c :: cs).all schemeChar = true ∧ splitScheme l = (lowerList (c :: cs), post)) := by
  cases hsp : splitOnFirst ':' l with
  | none => exact Or.inl (by rw [splitScheme, hsp])
  | some p =>
    obtain ⟨pre, post⟩ := p
    cases pre with
    | nil => exact Or.inl (by rw [splitScheme, hsp])
    | cons c cs =>
      by_cases hcond : (isAsciiAlpha c && (c :: cs).all schemeChar) = true
      · have hsplit : splitScheme l = (lowerList (c :: cs), post) := by
          rw [splitScheme, hsp]
          simp only []
          rw [if_pos hcond]
        simp only [Bool.and_eq_true] at hcond
        exact Or.inr ⟨c, cs, post, rfl, hcond.1, hcond.2, hsplit⟩
      · refine Or.inl ?_
        rw [splitScheme, hsp]
        simp only []
        rw [if_neg hcond]

theorem splitScheme_head_not_alpha (c : Char) (rest : List Char)
    (h : isAsciiAlpha c = false) : splitScheme (c :: rest) = ([], c :: rest) := by
  by_cases hc : c = ':'
  · rw [splitScheme, show splitOnFirst ':' (c :: rest) = some ([], rest) by
      rw [splitOnFirst, if_pos hc]]
  · rw [splitScheme, show splitOnFirst ':' (c :: rest) =
        (splitOnFirst ':' rest).map (fun p => (c :: p.1, p.2)) by
      rw [splitOnFirst, if_neg hc]]
    cases splitOnFirst ':' rest with
    | none => rfl
    | some p =>
      simp only [Option.map_some']
      rw [if_neg (by rw [h]; simp)]

theorem splitScheme_nil : splitScheme [] = ([], []) := rfl

theorem splitScheme_prefixed (sch u : List Char) (hne : sch ≠ [])
    (hchars : sch.all schemeChar = true)
    (halpha : ∀ c cs, sch = c :: cs → isAsciiAlpha c = true)
    (hlow : lowerList sch = sch) :
    splitScheme (sch ++ ':' :: u) = (sch, u) := by
  have hnc : ∀ c ∈ sch, c ≠ ':' := by
    intro c hc
    exact (schemeChar_facts c (by
      rw [List.all_eq_true] at hchars
      exact hchars c hc)).1
  rw [splitScheme, splitOnFirst_append_sep ':' sch u hnc]
  cases sch with
  | nil => exact absurd rfl hne
  | cons c cs =>
    simp only []
    rw [if_pos (by rw [halpha c cs rfl, hchars]; rfl), hlow]

theorem splitScheme_of_pre (l t : List Char)
    (h : splitScheme (l ++ t) = ([], l ++ t)) : splitScheme l = ([], l) := by
  cases hsp : splitOnFirst ':' l with
  | none => rw [splitScheme, hsp]
  | some p =>
    obtain ⟨a, b⟩ := p
    have hext := splitOnFirst_extend ':' l t a b hsp
    cases a with
    | nil => rw [splitScheme, hsp]
    | cons c cs =>
      rw [splitScheme, hext] at h
      simp only [] at h
      by_cases hcond : (isAsciiAlpha c && (c :: cs).all schemeChar) = true
      · rw [if_pos hcond] at h
        have h1 : lowerList (c :: cs) = [] := congrArg Prod.fst h
        exact absurd h1 (by simp [lowerList])
      · rw [splitScheme, hsp]
        simp only []
        rw [if_neg hcond]

theorem dropWhile_head_false (p : Char → Bool) :
    ∀ (l : List Char) (c : Char) (t : List Char), l.dropWhile p = c :: t → p c = false
  | [], c, t, h => by simp at h
  | a :: l, c, t, h => by
    rw [List.dropWhile_cons] at h
    by_cases ha : p a = true
    · rw [if_pos ha] at h
      exact dropWhile_head_false p l c t h
    · rw [if_neg ha] at h
      obtain ⟨rfl, _⟩ := List.cons.injEq a l c t ▸ h
      exact (Bool.not_eq_true (p a)).mp ha

theorem splitNetloc_marker (n u : List Char) (hn : n.all nonSpecial = true)
    (hu : u = [] ∨ u.take 1 = ['/']) :
    splitNetloc ('/' :: '/' :: (n ++ u)) = (n, u) := by
  have hstop : u = [] ∨ ∃ c t, u = c :: t ∧ nonSpecial c = false := by
    rcases hu with rfl | h1
    · exact Or.inl rfl
    · cases u with
      | nil => exact Or.inl rfl
      | cons c t =>
        right
        refine ⟨c, t, rfl, ?_⟩
        have hc : c = '/' := by simpa using h1
        subst hc
        rfl
  obtain ⟨ht, hd⟩ := takeWhile_append_stop nonSpecial n u
    (fun c hc => by rw [List.all_eq_true] at hn; exact hn c hc) hstop
  rw [splitNetloc,
    if_pos (show List.take 2 ('/' :: '/' :: (n ++ u)) = ['/', '/'] from rfl)]
  simp only [List.drop_succ_cons, List.drop_zero]
  rw [ht, hd]

theorem splitNetloc_no_marker (u : List Char) (h : u.take 2 ≠ ['/', '/']) :
    splitNetloc u = ([], u) := by
  rw [splitNetloc, if_neg h]

/-! ### Lemmas for splitparams -/

theorem splitparams_spec (q p par : List Char) (h : splitparams q = (p, par)) :
    (∃ t, q = p ++ t) ∧ (par ≠ [] → q = p ++ ';' :: par) ∧ (∀ c ∈ par, c ≠ '/') ∧
    splitparams p = (p, []) := by
  rw [splitparams] at h
  cases hL : splitOnLast '/' q with
  | some pr =>
    obtain ⟨qa, qb⟩ := pr
    obtain ⟨hq, hqb⟩ := splitOnLast_spec '/' q qa qb hL
    rw [hL] at h
    simp only [] at h
    cases hF : splitOnFirst ';' qb with
    | some pf =>
      obtain ⟨a, b⟩ := pf
      obtain ⟨hqb2, hna⟩ := splitOnFirst_spec ';' qb a b hF
      rw [hF] at h
      simp only [] at h
      have hp : p = qa ++ '/' :: a := (congrArg Prod.fst h).symm
      have hpar : par = b := (congrArg Prod.snd h).symm
      rw [hp, hpar]
      have hqdec : q = (qa ++ '/' :: a) ++ ';' :: b := by
        rw [hq, hqb2]
        simp
      refine ⟨⟨';' :: b, hqdec⟩, fun _ => hqdec, ?_, ?_⟩
      · intro c hc
        apply hqb
        rw [hqb2]
        exact List.mem_append_right a (List.mem_cons_of_mem _ hc)
      · have hna2 : ∀ c ∈ a, c ≠ '/' := by
          intro c hc
          apply hqb
          rw [hqb2]
          exact List.mem_append_left _ hc
        rw [splitparams, splitOnLast_append_sep '/' qa a hna2]
        simp only []
        rw [splitOnFirst_eq_none ';' a hna]
    | none =>
      rw [hF] at h
      simp only [] at h
      have hp : p = q := (congrArg Prod.fst h).symm
      have hpar : par = [] := (congrArg Prod.snd h).symm
      rw [hp, hpar]
      refine ⟨⟨[], by simp⟩, fun hc => absurd rfl hc, by simp, ?_⟩
      rw [splitparams, hL]
      simp only []
      rw [hF]
  | none =>
    have hnq : ∀ c ∈ q, c ≠ '/' := splitOnLast_none_spec '/' q hL
    rw [hL] at h
    simp only [] at h
    cases hF : splitOnFirst ';' q with
    | some pf =>
      obtain ⟨a, b⟩ := pf
      obtain ⟨hq2, hna⟩ := splitOnFirst_spec ';' q a b hF
      rw [hF] at h
      simp only [] at h
      have hp : p = a := (congrArg Prod.fst h).symm
      have hpar : par = b := (congrArg Prod.snd h).symm
      rw [hp, hpar]
      refine ⟨⟨';' :: b, hq2⟩, fun _ => hq2, ?_, ?_⟩
      · intro c hc
        apply hnq
        rw [hq2]
        exact List.mem_append_right a (List.mem_cons_of_mem _ hc)
      · have hnp : ∀ c ∈ a, c ≠ '/' := by
          intro c hc
          apply hnq
          rw [hq2]
          exact List.mem_append_left _ hc
        rw [splitparams, splitOnLast_eq_none '/' a hnp]
        simp only []
        rw [splitOnFirst_eq_none ';' a hna]
    | none =>
      rw [hF] at h
      simp only [] at h
      have hp : p = q := (congrArg Prod.fst h).symm
      have hpar : par = [] := (congrArg Prod.snd h).symm
      rw [hp, hpar]
      refine ⟨⟨[], by simp⟩, fun hc => absurd rfl hc, by simp, ?_⟩
      rw [splitparams, hL]
      simp only []
      rw [hF]

theorem splitparams_recomb (q par : List Char) (hq : splitparams q = (q, []))
    (hpar : ∀ c ∈ par, c ≠ '/') : splitparams (q ++ ';' :: par) = (q, par) := by
  rw [splitparams] at hq
  cases hL : splitOnLast '/' q with
  | some pr =>
    obtain ⟨qa, qb⟩ := pr
    obtain ⟨hqdec, hqb⟩ := splitOnLast_spec '/' q qa qb hL
    rw [hL] at hq
    simp only [] at hq
    have hFn : splitOnFirst ';' qb = none := by
      cases hF : splitOnFirst ';' qb with
      | none => rfl
      | some pf =>
        obtain ⟨a, b⟩ := pf
        rw [hF] at hq
        simp only [] at hq
        obtain ⟨hqb2, _⟩ := splitOnFirst_spec ';' qb a b hF
        have h1 : qa ++ '/' :: a = q := congrArg Prod.fst hq
        rw [hqdec] at h1
        have h3 := List.append_cancel_left h1
        have h2 : a = qb := (List.cons.injEq _ _ _ _ ▸ h3).2
        rw [h2] at hqb2
        have h4 := congrArg List.length hqb2
        simp only [List.length_append, List.length_cons] at h4
        omega
    have hnsemi : ∀ c ∈ qb, c ≠ ';' := splitOnFirst_none_spec ';' qb hFn
    have hnos : ∀ c ∈ qb ++ ';' :: par, c ≠ '/' := by
      intro c hc
      rcases List.mem_append.mp hc with hm | hm
      · exact hqb c hm
      · rcases List.mem_cons.mp hm with rfl | hm2
        · decide
        · exact hpar c hm2
    have hdec2 : q ++ ';' :: par = qa ++ '/' :: (qb ++ ';' :: par) := by
      rw [hqdec]
      simp
    rw [splitparams, hdec2, splitOnLast_append_sep '/' qa _ hnos]
    simp only []
    rw [splitOnFirst_append_sep ';' qb par hnsemi]
    simp only []
    rw [← hqdec]
  | none =>
    rw [hL] at hq
    simp only [] at hq
    have hnq : ∀ c ∈ q, c ≠ '/' := splitOnLast_none_spec '/' q hL
    have hFn : splitOnFirst ';' q = none := by
      cases hF : splitOnFirst ';' q with
      | none => rfl
      | some pf =>
        obtain ⟨a, b⟩ := pf
        rw [hF] at hq
        simp only [] at hq
        obtain ⟨hq2, _⟩ := splitOnFirst_spec ';' q a b hF
        have h1 : a = q := congrArg Prod.fst hq
        rw [h1] at hq2
        have h4 := congrArg List.length hq2
        simp only [List.length_append, List.length_cons] at h4
        omega
    have hns : ∀ c ∈ q, c ≠ ';' := splitOnFirst_none_spec ';' q hFn
    have hnoslash : ∀ c ∈ q ++ ';' :: par, c ≠ '/' := by
      intro c hc
      rcases List.mem_append.mp hc with hm | hm
      · exact hnq c hm
      · rcases List.mem_cons.mp hm with rfl | hm2
        · decide
        · exact hpar c hm2
    rw [splitparams, splitOnLast_eq_none '/' _ hnoslash]
    simp only []
    rw [splitOnFirst_append_sep ';' q par hns]

theorem splitparams_cons_slash (q : List Char) (hq : splitparams q = (q, [])) :
    splitparams ('/' :: q) = ('/' :: q, []) := by
  rw [splitparams] at hq
  cases hL : splitOnLast '/' q with
  | some pr =>
    obtain ⟨qa, qb⟩ := pr
    obtain ⟨hqdec, hqb⟩ := splitOnLast_spec '/' q qa qb hL
    rw [hL] at hq
    simp only [] at hq
    have hFn : splitOnFirst ';' qb = none := by
      cases hF : splitOnFirst ';' qb with
      | none => rfl
      | some pf =>
        obtain ⟨a, b⟩ := pf
        rw [hF] at hq
        simp only [] at hq
        obtain ⟨hqb2, _⟩ := splitOnFirst_spec ';' qb a b hF
        have h1 : qa ++ '/' :: a = q := congrArg Prod.fst hq
        rw [hqdec] at h1
        have h3 := List.append_cancel_left h1
        have h2 : a = qb := (List.cons.injEq _ _ _ _ ▸ h3).2
        rw [h2] at hqb2
        have h4 := congrArg List.length hqb2
        simp only [List.length_append, List.length_cons] at h4
        omega
    have hdec2 : '/' :: q = ('/' :: qa) ++ '/' :: qb := by
      rw [hqdec]
      rfl
    rw [splitparams, hdec2, splitOnLast_append_sep '/' ('/' :: qa) qb hqb]
    simp only []
    rw [hFn, ← hdec2]
  | none =>
    rw [hL] at hq
    simp only [] at hq
    have hnq : ∀ c ∈ q, c ≠ '/' := splitOnLast_none_spec '/' q hL
    have hFn : splitOnFirst ';' q = none := by
      cases hF : splitOnFirst ';' q with
      | none => rfl
      | some pf =>
        obtain ⟨a, b⟩ := pf
        rw [hF] at hq
        simp only [] at hq
        obtain ⟨hq2, _⟩ := splitOnFirst_spec ';' q a b hF
        have h1 : a = q := congrArg Prod.fst hq
        rw [h1] at hq2
        have h4 := congrArg List.length hq2
        simp only [List.length_append, List.length_cons] at h4
        omega
    rw [splitparams, show ('/' :: q : List Char) = [] ++ '/' :: q from rfl,
      splitOnLast_append_sep '/' [] q hnq]
    simp only []
    rw [hFn]

theorem mem_takeWhile_prop (p : Char → Bool) :
    ∀ (l : List Char) (c : Char), c ∈ l.takeWhile p → p c = true
  | [], c, hc => by simp at hc
  | a :: l, c, hc => by
    rw [List.takeWhile_cons] at hc
    by_cases ha : p a = true
    · rw [if_pos ha] at hc
      rcases List.mem_cons.mp hc with rfl | hm
      · exact ha
      · exact mem_takeWhile_prop p l c hm
    · rw [if_neg ha] at hc
      simp at hc

theorem takeWhile_nil_dropWhile (p : Char → Bool) (l : List Char)
    (h : l.takeWhile p = []) : l.dropWhile p = l := by
  cases l with
  | nil => rfl
  | cons c t =>
    rw [List.takeWhile_cons] at h
    by_cases hc : p c = true
    · rw [if_pos hc] at h
      exact absurd h (by simp)
    · rw [List.dropWhile_cons, if_neg hc]

theorem semi_absent_splitparams (q : List Char) (h : ∀ c ∈ q, c ≠ ';') :
    splitparams q = (q, []) := by
  cases hL : splitOnLast '/' q with
  | some pr =>
    obtain ⟨qa, qb⟩ := pr
    obtain ⟨hq, _⟩ := splitOnLast_spec '/' q qa qb hL
    have hqb : ∀ c ∈ qb, c ≠ ';' := by
      intro c hc
      apply h
      rw [hq]
      exact List.mem_append_right qa (List.mem_cons_of_mem _ hc)
    rw [splitparams, hL]
    simp only []
    rw [splitOnFirst_eq_none ';' qb hqb]
  | none =>
    rw [splitparams, hL]
    simp only []
    rw [splitOnFirst_eq_none ';' q h]

theorem urlsplit_decomp (x : List Char) :
    urlsplit x = ⟨(splitScheme (x.filter (fun c => !tabCrLf c))).1,
      (splitNetloc (splitScheme (x.filter (fun c => !tabCrLf c))).2).1,
      (splitOnFirstD '?' (splitOnFirstD '#'
        (splitNetloc (splitScheme (x.filter (fun c => !tabCrLf c))).2).2).1).1,
      (splitOnFirstD '?' (splitOnFirstD '#'
        (splitNetloc (splitScheme (x.filter (fun c => !tabCrLf c))).2).2).1).2,
      (splitOnFirstD '#'
        (splitNetloc (splitScheme (x.filter (fun c => !tabCrLf c))).2).2).2⟩ := rfl

theorem lowerList_all_schemeChar (l : List Char) (h : l.all schemeChar = true) :
    (lowerList l).all schemeChar = true := by
  rw [List.all_eq_true]
  intro c hc
  rw [lowerList, List.mem_map] at hc
  obtain ⟨a, ha, rfl⟩ := hc
  rw [List.all_eq_true] at h
  exact schemeChar_lowerChar a (h a ha)

/-- Structural invariants of `urlsplit`, stated on the five components. -/
theorem splitInv_holds (x : List Char) :
    (urlsplit x).scheme.all schemeChar = true ∧
    (∀ c cs, (urlsplit x).scheme = c :: cs → isAsciiAlpha c = true) ∧
    lowerList (urlsplit x).scheme = (urlsplit x).scheme ∧
    (urlsplit x).netloc.all nonSpecial = true ∧
    (urlsplit x).path.all (fun c => !(c = '?' || c = '#')) = true ∧
    ((urlsplit x).netloc ≠ [] →
      (urlsplit x).path = [] ∨ (urlsplit x).path.take 1 = ['/']) ∧
    ((urlsplit x).scheme = [] → (urlsplit x).netloc = [] →
      splitScheme (urlsplit x).path = ([], (urlsplit x).path)) ∧
    (∀ c ∈ (urlsplit x).netloc, tabCrLf c = false) ∧
    (∀ c ∈ (urlsplit x).path, tabCrLf c = false) := by
  have hclean1 : ∀ c ∈ x.filter (fun c => !tabCrLf c), tabCrLf c = false := by
    intro c hc
    have := List.of_mem_filter hc
    simpa using this
  set url1 := x.filter (fun c => !tabCrLf c) with hurl1
  obtain ⟨s, u2, hS⟩ : ∃ a b, splitScheme url1 = (a, b) := ⟨_, _, rfl⟩
  obtain ⟨n, u3, hN⟩ : ∃ a b, splitNetloc u2 = (a, b) := ⟨_, _, rfl⟩
  obtain ⟨u4, frag, hF⟩ : ∃ a b, splitOnFirstD '#' u3 = (a, b) := ⟨_, _, rfl⟩
  obtain ⟨pa, qu, hQ⟩ : ∃ a b, splitOnFirstD '?' u4 = (a, b) := ⟨_, _, rfl⟩
  have hx : urlsplit x = ⟨s, n, pa, qu, frag⟩ := by
    rw [urlsplit_decomp, ← hurl1, hS]
    simp only []
    rw [hN]
    simp only []
    rw [hF]
    simp only []
    rw [hQ]
  rw [hx]
  simp only []
  -- scheme facts and cleanliness of u2
  have hschemeSpec := splitScheme_spec url1
  rw [hS] at hschemeSpec
  have hscheme : (s.all schemeChar = true ∧
      (∀ c cs, s = c :: cs → isAsciiAlpha c = true) ∧ lowerList s = s) ∧
      (∀ c ∈ u2, tabCrLf c = false) ∧
      (s = [] → u2 = url1 ∧ splitScheme url1 = ([], url1)) := by
    rcases hschemeSpec with h0 | ⟨c, cs, post, hsp1, halpha, hchars, hsp2⟩
    · have hs0 : s = [] := congrArg Prod.fst h0
      have hu0 : u2 = url1 := congrArg Prod.snd h0
      subst hs0
      refine ⟨⟨rfl, fun c cs hc => by simp at hc, rfl⟩, ?_, fun _ => ⟨hu0, by rw [hS, hu0]⟩⟩
      intro c hc
      rw [hu0] at hc
      exact hclean1 c hc
    · have hs0 : s = lowerList (c :: cs) := congrArg Prod.fst hsp2
      have hu0 : u2 = post := congrArg Prod.snd hsp2
      obtain ⟨hdec1, _⟩ := splitOnFirst_spec ':' url1 (c :: cs) post hsp1
      refine ⟨⟨by rw [hs0]; exact lowerList_all_schemeChar _ hchars, ?_, ?_⟩, ?_, ?_⟩
      · intro d ds hd
        rw [hs0] at hd
        simp only [lowerList, List.map_cons, List.cons.injEq] at hd
        rw [← hd.1]
        exact isAsciiAlpha_lowerChar c halpha
      · rw [hs0]
        exact lowerList_idem _
      · intro d hd
        apply hclean1
        rw [hdec1, hu0] at *
        exact List.mem_append_right _ (List.mem_cons_of_mem _ hd)
      · intro hs1
        rw [hs0] at hs1
        exact absurd hs1 (by simp [lowerList])
  obtain ⟨⟨hi1, hi2, hi3⟩, hu2clean, hschemenil⟩ := hscheme
  -- netloc facts
  have hnetloc : (n.all nonSpecial = true) ∧ (∀ c ∈ n, tabCrLf c = false) ∧
      (∀ c ∈ u3, tabCrLf c = false) ∧
      (n = [] ∧ u3 = u2 ∧ u2.take 2 ≠ ['/', '/'] ∨
       (u3 = [] ∨ ∃ c t, u3 = c :: t ∧ nonSpecial c = false) ∧
         (n = [] → u3 = u2.drop 2)) := by
    by_cases hm : u2.take 2 = ['/', '/']
    · have hN2 : splitNetloc u2 = ((u2.drop 2).takeWhile nonSpecial,
          (u2.drop 2).dropWhile nonSpecial) := by
        rw [splitNetloc, if_pos hm]
      rw [hN] at hN2
      have hn0 : n = (u2.drop 2).takeWhile nonSpecial := congrArg Prod.fst hN2
      have hu30 : u3 = (u2.drop 2).dropWhile nonSpecial := congrArg Prod.snd hN2
      have hdropclean : ∀ c ∈ u2.drop 2, tabCrLf c = false := by
        intro c hc
        exact hu2clean c (List.mem_of_mem_drop hc)
      refine ⟨?_, ?_, ?_, Or.inr ⟨?_, ?_⟩⟩
      · rw [List.all_eq_true]
        intro c hc
        rw [hn0] at hc
        exact mem_takeWhile_prop nonSpecial _ c hc
      · intro c hc
        rw [hn0] at hc
        apply hdropclean
        have h5 := List.takeWhile_append_dropWhile (p := nonSpecial) (l := u2.drop 2)
        rw [← h5]
        exact List.mem_append_left _ hc
      · intro c hc
        rw [hu30] at hc
        apply hdropclean
        have h5 := List.takeWhile_append_dropWhile (p := nonSpecial) (l := u2.drop 2)
        rw [← h5]
        exact List.mem_append_right _ hc
      · cases hu3c : u3 with
        | nil => exact Or.inl rfl
        | cons c t =>
          right
          refine ⟨c, t, rfl, ?_⟩
          rw [hu3c] at hu30
          exact dropWhile_head_false nonSpecial _ c t hu30.symm
      · intro hn1
        rw [hn1] at hn0
        rw [hu30, takeWhile_nil_dropWhile nonSpecial _ hn0.symm]
    · have hN2 : splitNetloc u2 = ([], u2) := splitNetloc_no_marker u2 hm
      rw [hN] at hN2
      have hn0 : n = [] := congrArg Prod.fst hN2
      have hu30 : u3 = u2 := congrArg Prod.snd hN2
      subst hn0
      refine ⟨rfl, by simp, ?_, Or.inl ⟨rfl, hu30, hm⟩⟩
      intro c hc
      rw [hu30] at hc
      exact hu2clean c hc
  obtain ⟨hi4, hnclean, hu3clean, hncase⟩ := hnetloc
  -- fragment and query layer facts
  obtain ⟨t4, hu4dec⟩ := splitOnFirstD_decomp '#' u3
  rw [hF] at hu4dec
  have hu4ne : ∀ c ∈ u4, c ≠ '#' := by
    have := splitOnFirstD_fst_ne '#' u3
    rw [hF] at this
    exact this
  obtain ⟨t5, hpadec⟩ := splitOnFirstD_decomp '?' u4
  rw [hQ] at hpadec
  have hpane : ∀ c ∈ pa, c ≠ '?' := by
    have := splitOnFirstD_fst_ne '?' u4
    rw [hQ] at this
    exact this
  have hpamem : ∀ c ∈ pa, c ∈ u3 := by
    intro c hc
    rw [hu4dec]
    exact List.mem_append_left _ (hpadec ▸ List.mem_append_left _ hc)
  have hi5 : pa.all (fun c => !(c = '?' || c = '#')) = true := by
    rw [List.all_eq_true]
    intro c hc
    have h1 := hpane c hc
    have h2 : c ≠ '#' := hu4ne c (hpadec ▸ List.mem_append_left _ hc)
    simp [h1, h2]
  have hpaclean : ∀ c ∈ pa, tabCrLf c = false := fun c hc => hu3clean c (hpamem c hc)
  -- head transfer: if u3 = c :: t with c not special, head shape of pa
  have hhead : ∀ c t, u3 = c :: t → nonSpecial c = false → pa = [] ∨ pa.take 1 = ['/'] := by
    intro c t hu3c hns
    have hc3 : c = '/' ∨ c = '?' ∨ c = '#' := by
      simp only [nonSpecial] at hns
      have h9 : (decide (c = '/') || decide (c = '?') || decide (c = '#')) = true := by
        cases h8 : (decide (c = '/') || decide (c = '?') || decide (c = '#'))
        · rw [h8] at hns
          exact absurd hns (by decide)
        · rfl
      simp only [Bool.or_eq_true, decide_eq_true_eq] at h9
      tauto
    rcases hc3 with rfl | rfl | rfl
    · -- u3 starts with '/': u4 starts with '/', pa starts with '/'
      have h4 : u4 = '/' :: (splitOnFirstD '#' t).1 := by
        have := splitOnFirstD_cons '#' '/' t
        rw [hu3c] at hF
        rw [hF] at this
        rw [if_neg (by decide)] at this
        exact congrArg Prod.fst this
      have h5 : pa = '/' :: (splitOnFirstD '?' (splitOnFirstD '#' t).1).1 := by
        have := splitOnFirstD_cons '?' '/' (splitOnFirstD '#' t).1
        rw [h4] at hQ
        rw [hQ] at this
        rw [if_neg (by decide)] at this
        exact congrArg Prod.fst this
      right
      rw [h5]
      rfl
    · -- u3 starts with '?': the '#' split keeps the head, the '?' split empties
      have h4 : u4 = '?' :: (splitOnFirstD '#' t).1 := by
        have := splitOnFirstD_cons '#' '?' t
        rw [hu3c] at hF
        rw [hF] at this
        rw [if_neg (by decide)] at this
        exact congrArg Prod.fst this
      have h5 : pa = [] := by
        have := splitOnFirstD_cons '?' '?' (splitOnFirstD '#' t).1
        rw [h4] at hQ
        rw [hQ] at this
        rw [if_pos rfl] at this
        exact congrArg Prod.fst this
      exact Or.inl h5
    · -- u3 starts with '#': the '#' split empties
      have h4 : u4 = [] := by
        have := splitOnFirstD_cons '#' '#' t
        rw [hu3c] at hF
        rw [hF] at this
        rw [if_pos rfl] at this
        exact congrArg Prod.fst this
      have h5 : pa = [] := by
        rw [h4] at hQ
        rw [splitOnFirstD_absent '?' [] (by simp)] at hQ
        exact congrArg Prod.fst hQ.symm
      exact Or.inl h5
  refine ⟨hi1, hi2, hi3, hi4, hi5, ?_, ?_, hnclean, hpaclean⟩
  · -- netloc_path
    intro hn1
    rcases hncase with ⟨hn0, _, _⟩ | ⟨hstop, _⟩
    · exact absurd hn0 hn1
    · rcases hstop with hu30 | ⟨c, t, hu3c, hns⟩
      · left
        rw [hu30] at hu4dec
        have h4 : u4 = [] := by
          cases hu4 : u4 with
          | nil => rfl
          | cons a b =>
            rw [hu4] at hu4dec
            exact absurd hu4dec.symm (by simp)
        rw [h4] at hpadec
        cases hpa : pa with
        | nil => rfl
        | cons a b =>
          rw [hpa] at hpadec
          exact absurd hpadec.symm (by simp)
      · exact hhead c t hu3c hns
  · -- scheme_free
    intro hs1 hn1
    rcases hncase with ⟨_, hu30, _⟩ | ⟨hstop, hdrop⟩
    · -- no netloc marker: pa is a piece of the front of url1
      obtain ⟨hu20, hfree⟩ := hschemenil hs1
      have hdec : url1 = pa ++ (t5 ++ t4) := by
        rw [← hu20, ← hu30, hu4dec, hpadec]
        simp
      exact splitScheme_of_pre pa (t5 ++ t4) (by rw [← hdec]; exact hfree)
    · -- netloc marker with empty netloc: u3 is empty or starts with a delimiter
      rcases hstop with hu30 | ⟨c, t, hu3c, hns⟩
      · have h4 : u4 = [] := by
          rw [hu30] at hu4dec
          cases hu4 : u4 with
          | nil => rfl
          | cons a b =>
            rw [hu4] at hu4dec
            exact absurd hu4dec.symm (by simp)
        have h5 : pa = [] := by
          rw [h4] at hpadec
          cases hpa : pa with
          | nil => rfl
          | cons a b =>
            rw [hpa] at hpadec
            exact absurd hpadec.symm (by simp)
        rw [h5]
        exact splitScheme_nil
      · rcases hhead c t hu3c hns with h5 | h5
        · rw [h5]
          exact splitScheme_nil
        · cases hpa : pa with
          | nil => exact splitScheme_nil
          | cons a b =>
            rw [hpa] at h5
            have ha : a = '/' := by simpa using h5
            subst ha
            exact splitScheme_head_not_alpha '/' b (by decide)

theorem urlparse_eq (x : List Char) :
    urlparse x = if (urlsplit x).scheme ∈ usesParams ∧ ';' ∈ (urlsplit x).path then
      ⟨(urlsplit x).scheme, (urlsplit x).netloc, (splitparams (urlsplit x).path).1,
       (splitparams (urlsplit x).path).2, (urlsplit x).query, (urlsplit x).fragment⟩
    else ⟨(urlsplit x).scheme, (urlsplit x).netloc, (urlsplit x).path, [],
       (urlsplit x).query, (urlsplit x).fragment⟩ := rfl

/-- Every result of `urlparse` satisfies the structural invariants. -/
theorem parseInv_holds (x : List Char) : ParseInv (urlparse x) := by
  obtain ⟨i1, i2, i3, i4, i5, i6, i7, i8, i9⟩ := splitInv_holds x
  by_cases hg : (urlsplit x).scheme ∈ usesParams ∧ ';' ∈ (urlsplit x).path
  · obtain ⟨p, par, hpp⟩ : ∃ a b, splitparams (urlsplit x).path = (a, b) := ⟨_, _, rfl⟩
    have hres : urlparse x = ⟨(urlsplit x).scheme, (urlsplit x).netloc, p, par,
        (urlsplit x).query, (urlsplit x).fragment⟩ := by
      rw [urlparse_eq, if_pos hg, hpp]
    obtain ⟨⟨t, hdec⟩, hrecomb, hparns, hpp2⟩ :=
      splitparams_spec (urlsplit x).path p par hpp
    have hparmem : par ≠ [] → ∀ c ∈ par, c ∈ (urlsplit x).path := by
      intro hne c hc
      rw [hrecomb hne]
      exact List.mem_append_right _ (List.mem_cons_of_mem _ hc)
    rw [hres]
    refine ⟨i1, i2, i3, i4, ?_, ?_, ?_, ?_, ?_, ?_, i8, ?_, ?_⟩
    · -- path_ok
      rw [List.all_eq_true]
      intro c hc
      exact (List.all_eq_true.mp i5) c (mem_of_append_decomp hdec c hc)
    · -- params_ok
      rw [List.all_eq_true]
      intro c hc
      have hslash := hparns c hc
      have hmem : c ∈ (urlsplit x).path := by
        refine hparmem ?_ c hc
        intro h0
        rw [h0] at hc
        simp at hc
      have h2 := (List.all_eq_true.mp i5) c hmem
      simp only [Bool.not_eq_true', Bool.or_eq_false_iff, decide_eq_false_iff_not] at h2
      simp [h2.1, h2.2, hslash]
    · -- netloc_path
      intro hn
      rcases i6 hn with hp0 | hp1
      · have hsp0 : splitparams ([] : List Char) = ([], []) := rfl
        rw [hp0, hsp0] at hpp
        exact Or.inl ⟨(congrArg Prod.fst hpp).symm, (congrArg Prod.snd hpp).symm⟩
      · cases hpc : (urlsplit x).path with
        | nil =>
          rw [hpc] at hp1
          exact absurd hp1 (by decide)
        | cons a b =>
          have ha : a = '/' := by
            rw [hpc] at hp1
            simpa using hp1
          cases hpcase : p with
          | nil =>
            left
            refine ⟨rfl, ?_⟩
            by_contra hne
            have hq := hrecomb hne
            rw [hpcase, hpc] at hq
            simp only [List.nil_append] at hq
            have : a = ';' := (List.cons.injEq _ _ _ _ ▸ hq).1
            rw [ha] at this
            exact absurd this (by decide)
          | cons c q =>
            right
            have hq : (urlsplit x).path = c :: (q ++ t) := by
              rw [hdec, hpcase]
              rfl
            rw [hpc] at hq
            have hca : c = a := ((List.cons.injEq _ _ _ _).mp hq.symm).1
            rw [hca, ha]
            rfl
    · -- path_params
      intro _
      exact hpp2
    · -- params_scheme
      intro _
      exact hg.1
    · -- scheme_free
      intro hs hn
      by_cases hne : par = []
      · rw [recombParams, if_neg (by simpa using hne)]
        exact splitScheme_of_pre p t (by rw [← hdec]; exact i7 hs hn)
      · rw [recombParams, if_pos hne, ← hrecomb hne]
        exact i7 hs hn
    · -- path_clean
      intro c hc
      exact i9 c (mem_of_append_decomp hdec c hc)
    · -- params_clean
      intro c hc
      refine i9 c (hparmem ?_ c hc)
      intro h0
      rw [h0] at hc
      simp at hc
  · have hres : urlparse x = ⟨(urlsplit x).scheme, (urlsplit x).netloc,
        (urlsplit x).path, [], (urlsplit x).query, (urlsplit x).fragment⟩ := by
      rw [urlparse_eq, if_neg hg]
    rw [hres]
    refine ⟨i1, i2, i3, i4, i5, rfl, ?_, ?_, ?_, ?_, i8, i9, ?_⟩
    · intro hn
      rcases i6 hn with hp0 | hp1
      · exact Or.inl ⟨hp0, rfl⟩
      · exact Or.inr hp1
    · intro hus
      rw [not_and] at hg
      have hsemi := hg hus
      refine semi_absent_splitparams _ ?_
      intro c hc heq
      rw [heq] at hc
      exact hsemi hc
    · intro h
      exact absurd rfl h
    · intro hs hn
      rw [recombParams, if_neg (by simp)]
      exact i7 hs hn
    · intro c hc
      simp at hc

theorem clean_append {l1 l2 : List Char}
    (a : ∀ c ∈ l1, tabCrLf c = false) (b : ∀ c ∈ l2, tabCrLf c = false) :
    ∀ c ∈ l1 ++ l2, tabCrLf c = false := by
  intro c hc
  rcases List.mem_append.mp hc with h | h
  · exact a c h
  · exact b c h

theorem clean_cons {c0 : Char} {l : List Char}
    (a : tabCrLf c0 = false) (b : ∀ c ∈ l, tabCrLf c = false) :
    ∀ c ∈ c0 :: l, tabCrLf c = false := by
  intro c hc
  rcases List.mem_cons.mp hc with rfl | h
  · exact a
  · exact b c h

theorem recombParams_mem (p par : List Char) :
    ∀ c ∈ recombParams p par, c ∈ p ∨ c = ';' ∨ c ∈ par := by
  rw [recombParams]
  by_cases hpar : par ≠ []
  · rw [if_pos hpar]
    intro c hc
    rcases List.mem_append.mp hc with h | h
    · exact Or.inl h
    · rcases List.mem_cons.mp h with h | h
      · exact Or.inr (Or.inl h)
      · exact Or.inr (Or.inr h)
  · rw [if_neg hpar]
    intro c hc
    exact Or.inl hc

theorem recombParams_nil_right (p : List Char) : recombParams p [] = p := by
  rw [recombParams, if_neg (by simp)]

theorem recombParams_ne_nil_right (p par : List Char) (h : par ≠ []) :
    recombParams p par = p ++ ';' :: par := by
  rw [recombParams, if_pos h]

theorem recombParams_take2 (p par : List Char) (h : p.take 2 ≠ ['/', '/']) :
    (recombParams p par).take 2 ≠ ['/', '/'] := by
  by_cases hpar : par = []
  · rw [hpar, recombParams_nil_right]
    exact h
  · rw [recombParams_ne_nil_right p par hpar]
    cases p with
    | nil =>
      simp only [List.nil_append]
      intro hcon
      have h0 : (';' :: par).take 2 = ';' :: par.take 1 := rfl
      rw [h0] at hcon
      exact absurd ((List.cons.injEq _ _ _ _).mp hcon).1 (by decide)
    | cons a b =>
      cases b with
      | nil =>
        intro hcon
        have h1 : (([a] ++ ';' :: par).take 2 : List Char) = a :: ';' :: [] := rfl
        rw [h1] at hcon
        have h2 := ((List.cons.injEq _ _ _ _).mp hcon).2
        exact absurd ((List.cons.injEq _ _ _ _).mp h2).1 (by decide)
      | cons a2 b2 =>
        intro hcon
        apply h
        have h1 : ((a :: a2 :: b2 ++ ';' :: par).take 2 : List Char) = a :: a2 :: [] := rfl
        have h2 : ((a :: a2 :: b2).take 2 : List Char) = a :: a2 :: [] := rfl
        rw [h1] at hcon
        rw [h2, hcon]

theorem recombParams_take1 (p par : List Char) (h : p.take 1 = ['/']) :
    (recombParams p par).take 1 = ['/'] := by
  cases p with
  | nil => exact absurd h (by decide)
  | cons a b =>
    have ha : a = '/' := by simpa using h
    subst ha
    by_cases hpar : par = []
    · rw [hpar, recombParams_nil_right]
      exact h
    · rw [recombParams_ne_nil_right _ par hpar]
      rfl

theorem recombParams_eq_nil (p par : List Char) (h : recombParams p par = []) :
    p = [] ∧ par = [] := by
  by_cases hpar : par = []
  · rw [hpar, recombParams_nil_right] at h
    exact ⟨h, hpar⟩
  · rw [recombParams_ne_nil_right p par hpar] at h
    exact absurd h (by simp)

theorem recombParams_cons_slash (p par : List Char) :
    recombParams ('/' :: p) par = '/' :: recombParams p par := by
  by_cases hpar : par = []
  · rw [hpar, recombParams_nil_right, recombParams_nil_right]
  · rw [recombParams_ne_nil_right _ par hpar, recombParams_ne_nil_right p par hpar]
    rfl

theorem urlsplit_compute (x sch rest n u : List Char)
    (hclean : ∀ c ∈ x, tabCrLf c = false)
    (hS : splitScheme x = (sch, rest))
    (hN : splitNetloc rest = (n, u))
    (hnohash : ∀ c ∈ u, c ≠ '#')
    (hnoq : ∀ c ∈ u, c ≠ '?') :
    urlsplit x = ⟨sch, n, u, [], []⟩ := by
  rw [urlsplit_decomp, filter_not_tab_id x hclean, hS]
  simp only []
  rw [hN]
  simp only []
  rw [splitOnFirstD_absent '#' u hnohash]
  simp only []
  rw [splitOnFirstD_absent '?' u hnoq]

theorem urlparse_split (y s n u qq ff : List Char)
    (hup : urlsplit y = ⟨s, n, u, qq, ff⟩) :
    urlparse y = if s ∈ usesParams ∧ ';' ∈ u then
      ⟨s, n, (splitparams u).1, (splitparams u).2, qq, ff⟩
    else ⟨s, n, u, [], qq, ff⟩ := by
  rw [urlparse_eq, hup]

theorem urlparse_of_split (y s n p par : List Char)
    (hup : urlsplit y = ⟨s, n, recombParams p par, [], []⟩)
    (hpp : s ∈ usesParams → splitparams p = (p, []))
    (hps : par ≠ [] → s ∈ usesParams)
    (hparns : ∀ c ∈ par, c ≠ '/') :
    urlparse y = ⟨s, n, p, par, [], []⟩ := by
  rw [urlparse_split y s n (recombParams p par) [] [] hup]
  by_cases hpar : par = []
  · subst hpar
    rw [recombParams_nil_right]
    by_cases hg : s ∈ usesParams ∧ ';' ∈ p
    · rw [if_pos hg, hpp hg.1]
    · rw [if_neg hg]
  · have hus := hps hpar
    rw [recombParams_ne_nil_right p par hpar]
    have hg : s ∈ usesParams ∧ ';' ∈ p ++ ';' :: par :=
      ⟨hus, List.mem_append_right _ (List.mem_cons_self _ _)⟩
    rw [if_pos hg, splitparams_recomb p par (hpp hus) hparns]

theorem urlunsplit_qf_nil (scheme netloc url : List Char) :
    urlunsplit scheme netloc url [] [] =
      (if scheme ≠ [] then
        scheme ++ ':' ::
          (if netloc ≠ [] ∨ (scheme ≠ [] ∧ scheme ∈ usesNetloc ∧ url.take 2 ≠ ['/', '/']) then
            '/' :: '/' :: (netloc ++ (if url ≠ [] ∧ url.take 1 ≠ ['/'] then '/' :: url else url))
          else url)
      else
        (if netloc ≠ [] ∨ (scheme ≠ [] ∧ scheme ∈ usesNetloc ∧ url.take 2 ≠ ['/', '/']) then
          '/' :: '/' :: (netloc ++ (if url ≠ [] ∧ url.take 1 ≠ ['/'] then '/' :: url else url))
        else url)) := by
  rw [urlunsplit]
  rw [if_neg (show ¬(([] : List Char) ≠ []) by simp),
    if_neg (show ¬(([] : List Char) ≠ []) by simp)]

theorem canonicalize_eq (url : List Char) :
    canonicalize_url url = urlunparse ⟨(urlparse url).scheme, (urlparse url).netloc,
      (urlparse url).path, (urlparse url).params, [], []⟩ := rfl

theorem reparse_core (s n p par url1 : List Char)
    (h1 : s.all schemeChar = true)
    (h2 : ∀ c cs, s = c :: cs → isAsciiAlpha c = true)
    (h3 : lowerList s = s)
    (hs_clean : ∀ c ∈ s, tabCrLf c = false)
    (hurl1_clean : ∀ c ∈ url1, tabCrLf c = false)
    (hfree : s = [] → splitScheme url1 = ([], url1))
    (hN : splitNetloc url1 = (n, recombParams p par))
    (hnohash : ∀ c ∈ recombParams p par, c ≠ '#')
    (hnoq : ∀ c ∈ recombParams p par, c ≠ '?')
    (hpp : s ∈ usesParams → splitparams p = (p, []))
    (hps : par ≠ [] → s ∈ usesParams)
    (hparns : ∀ c ∈ par, c ≠ '/') :
    urlparse (if s ≠ [] then s ++ ':' :: url1 else url1) = ⟨s, n, p, par, [], []⟩ := by
  by_cases hs : s = []
  · subst hs
    rw [if_neg (show ¬(([] : List Char) ≠ []) by simp)]
    exact urlparse_of_split url1 [] n p par
      (urlsplit_compute url1 [] url1 n (recombParams p par) hurl1_clean (hfree rfl) hN
        hnohash hnoq)
      hpp hps hparns
  · rw [if_pos hs]
    exact urlparse_of_split (s ++ ':' :: url1) s n p par
      (urlsplit_compute (s ++ ':' :: url1) s url1 n (recombParams p par)
        (clean_append hs_clean (clean_cons (by decide) hurl1_clean))
        (splitScheme_prefixed s url1 hs h1 h2 h3) hN hnohash hnoq)
      hpp hps hparns

/-- The serialization produced by `canonicalize_url` is a fixed point of
`canonicalize_url`, for every parse result satisfying the invariants, as long
as the parse did not lose a leading `//` of a netloc-free path. -/
theorem canonical_stable (r : ParseResult) (hinv : ParseInv r)
    (H : r.netloc ≠ [] ∨ r.path.take 2 ≠ ['/', '/']) :
    canonicalize_url (urlunparse (clearQF r)) = urlunparse (clearQF r) := by
  obtain ⟨s, n, p, par, q, f⟩ := r
  have hpath_facts : ∀ c ∈ p, ¬(c = '?') ∧ ¬(c = '#') := by
    intro c hc
    have h := (List.all_eq_true.mp hinv.path_ok) c hc
    simp only [Bool.not_eq_true', Bool.or_eq_false_iff, decide_eq_false_iff_not] at h
    exact h
  have hpar_facts : ∀ c ∈ par, (¬(c = '?') ∧ ¬(c = '#')) ∧ ¬(c = '/') := by
    intro c hc
    have h := (List.all_eq_true.mp hinv.params_ok) c hc
    simp only [Bool.not_eq_true', Bool.or_eq_false_iff, decide_eq_false_iff_not] at h
    exact h
  have hu_clean : ∀ c ∈ recombParams p par, tabCrLf c = false := by
    intro c hc
    rcases recombParams_mem p par c hc with h | h | h
    · exact hinv.path_clean c h
    · rw [h]
      decide
    · exact hinv.params_clean c h
  have hu_nohash : ∀ c ∈ recombParams p par, c ≠ '#' := by
    intro c hc
    rcases recombParams_mem p par c hc with h | h | h
    · exact (hpath_facts c h).2
    · rw [h]
      decide
    · exact (hpar_facts c h).1.2
  have hu_noq : ∀ c ∈ recombParams p par, c ≠ '?' := by
    intro c hc
    rcases recombParams_mem p par c hc with h | h | h
    · exact (hpath_facts c h).1
    · rw [h]
      decide
    · exact (hpar_facts c h).1.1
  have hparns : ∀ c ∈ par, c ≠ '/' := fun c hc => (hpar_facts c hc).2
  have hs_clean : ∀ c ∈ s, tabCrLf c = false := by
    intro c hc
    exact (schemeChar_facts c ((List.all_eq_true.mp hinv.scheme_chars) c hc)).2.2.2.2
  have hy0 : urlunparse (clearQF ⟨s, n, p, par, q, f⟩) =
      urlunsplit s n (recombParams p par) [] [] := rfl
  rw [hy0]
  by_cases hn : n = []
  · -- no netloc
    subst hn
    have hp2 : p.take 2 ≠ ['/', '/'] := by
      rcases H with hne | hp2
      · exact absurd rfl hne
      · exact hp2
    have hu2 : (recombParams p par).take 2 ≠ ['/', '/'] := recombParams_take2 p par hp2
    by_cases hB : s ≠ [] ∧ s ∈ usesNetloc
    · by_cases hX : recombParams p par ≠ [] ∧ (recombParams p par).take 1 ≠ ['/']
      · -- the reserialization inserts a third slash; the string is still stable
        have hcs := recombParams_cons_slash p par
        have hy1 : urlunsplit s [] (recombParams p par) [] [] =
            (if s ≠ [] then s ++ ':' :: ('/' :: '/' :: ([] ++ '/' :: recombParams p par))
             else '/' :: '/' :: ([] ++ '/' :: recombParams p par)) := by
          rw [urlunsplit_qf_nil, if_pos hX, if_pos (Or.inr ⟨hB.1, hB.2, hu2⟩)]
        rw [hy1]
        have hnohash2 : ∀ c ∈ recombParams ('/' :: p) par, c ≠ '#' := by
          intro c hc
          rw [hcs] at hc
          rcases List.mem_cons.mp hc with rfl | h
          · decide
          · exact hu_nohash c h
        have hnoq2 : ∀ c ∈ recombParams ('/' :: p) par, c ≠ '?' := by
          intro c hc
          rw [hcs] at hc
          rcases List.mem_cons.mp hc with rfl | h
          · decide
          · exact hu_noq c h
        have hrep : urlparse
            (if s ≠ [] then s ++ ':' :: ('/' :: '/' :: ([] ++ '/' :: recombParams p par))
             else '/' :: '/' :: ([] ++ '/' :: recombParams p par)) =
            ⟨s, [], '/' :: p, par, [], []⟩ := by
          refine reparse_core s [] ('/' :: p) par
            ('/' :: '/' :: ([] ++ '/' :: recombParams p par))
            hinv.scheme_chars hinv.scheme_alpha hinv.scheme_lower hs_clean ?_ ?_ ?_
            hnohash2 hnoq2 ?_ hinv.params_scheme hparns
          · exact clean_cons (by decide) (clean_cons (by decide)
              (clean_cons (by decide) hu_clean))
          · intro _
            exact splitScheme_head_not_alpha '/' _ (by decide)
          · rw [hcs]
            exact splitNetloc_marker [] ('/' :: recombParams p par) rfl (Or.inr rfl)
          · intro hus
            exact splitparams_cons_slash p (hinv.path_params hus)
        rw [canonicalize_eq, hrep]
        have htk : ('/' :: recombParams p par).take 2 ≠ ['/', '/'] := by
          intro hcon
          have h0 : ('/' :: recombParams p par).take 2 =
              '/' :: (recombParams p par).take 1 := rfl
          rw [h0] at hcon
          exact hX.2 ((List.cons.injEq _ _ _ _).mp hcon).2
        have hy2 : urlunsplit s [] (recombParams ('/' :: p) par) [] [] =
            (if s ≠ [] then s ++ ':' :: ('/' :: '/' :: ([] ++ '/' :: recombParams p par))
             else '/' :: '/' :: ([] ++ '/' :: recombParams p par)) := by
          rw [hcs, urlunsplit_qf_nil,
            if_neg (show ¬('/' :: recombParams p par ≠ [] ∧
              ('/' :: recombParams p par).take 1 ≠ ['/']) by intro hcon; exact hcon.2 rfl),
            if_pos (Or.inr ⟨hB.1, hB.2, htk⟩)]
        exact hy2
      · -- the path is empty or already starts with a slash
        have hstop : recombParams p par = [] ∨ (recombParams p par).take 1 = ['/'] := by
          by_cases h0 : recombParams p par = []
          · exact Or.inl h0
          · right
            by_contra h1
            exact hX ⟨h0, h1⟩
        have hy1 : urlunsplit s [] (recombParams p par) [] [] =
            (if s ≠ [] then s ++ ':' :: ('/' :: '/' :: ([] ++ recombParams p par))
             else '/' :: '/' :: ([] ++ recombParams p par)) := by
          rw [urlunsplit_qf_nil, if_neg hX, if_pos (Or.inr ⟨hB.1, hB.2, hu2⟩)]
        rw [hy1]
        have hrep : urlparse
            (if s ≠ [] then s ++ ':' :: ('/' :: '/' :: ([] ++ recombParams p par))
             else '/' :: '/' :: ([] ++ recombParams p par)) = ⟨s, [], p, par, [], []⟩ := by
          refine reparse_core s [] p par ('/' :: '/' :: ([] ++ recombParams p par))
            hinv.scheme_chars hinv.scheme_alpha hinv.scheme_lower hs_clean ?_ ?_ ?_
            hu_nohash hu_noq hinv.path_params hinv.params_scheme hparns
          · exact clean_cons (by decide) (clean_cons (by decide) hu_clean)
          · intro _
            exact splitScheme_head_not_alpha '/' _ (by decide)
          · exact splitNetloc_marker [] (recombParams p par) rfl hstop
        rw [canonicalize_eq, hrep]
        exact hy1
    · -- the `//` marker is not restored
      have hcond1f : ¬(([] : List Char) ≠ [] ∨ (s ≠ [] ∧ s ∈ usesNetloc ∧
          (recombParams p par).take 2 ≠ ['/', '/'])) := by
        intro hcon
        rcases hcon with h | h
        · exact h rfl
        · exact hB ⟨h.1, h.2.1⟩
      have hy1 : urlunsplit s [] (recombParams p par) [] [] =
          (if s ≠ [] then s ++ ':' :: recombParams p par else recombParams p par) := by
        rw [urlunsplit_qf_nil, if_neg hcond1f]
      rw [hy1]
      have hrep : urlparse (if s ≠ [] then s ++ ':' :: recombParams p par
          else recombParams p par) = ⟨s, [], p, par, [], []⟩ := by
        refine reparse_core s [] p par (recombParams p par)
          hinv.scheme_chars hinv.scheme_alpha hinv.scheme_lower hs_clean hu_clean ?_ ?_
          hu_nohash hu_noq hinv.path_params hinv.params_scheme hparns
        · intro hs0
          exact hinv.scheme_free hs0 rfl
        · exact splitNetloc_no_marker (recombParams p par) hu2
      rw [canonicalize_eq, hrep]
      exact hy1
  · -- nonempty netloc: the marker and netloc round-trip exactly
    have hXfalse : ¬(recombParams p par ≠ [] ∧ (recombParams p par).take 1 ≠ ['/']) := by
      rcases hinv.netloc_path hn with ⟨hp0, hpar0⟩ | hp1
      · rw [(show p = [] from hp0), (show par = [] from hpar0), recombParams_nil_right]
        simp
      · intro hcon
        exact hcon.2 (recombParams_take1 p par hp1)
    have hstop : recombParams p par = [] ∨ (recombParams p par).take 1 = ['/'] := by
      rcases hinv.netloc_path hn with ⟨hp0, hpar0⟩ | hp1
      · left
        rw [(show p = [] from hp0), (show par = [] from hpar0), recombParams_nil_right]
      · right
        exact recombParams_take1 p par hp1
    have hy1 : urlunsplit s n (recombParams p par) [] [] =
        (if s ≠ [] then s ++ ':' :: ('/' :: '/' :: (n ++ recombParams p par))
         else '/' :: '/' :: (n ++ recombParams p par)) := by
      rw [urlunsplit_qf_nil, if_neg hXfalse, if_pos (Or.inl hn)]
    rw [hy1]
    have hrep : urlparse (if s ≠ [] then s ++ ':' :: ('/' :: '/' :: (n ++ recombParams p par))
        else '/' :: '/' :: (n ++ recombParams p par)) = ⟨s, n, p, par, [], []⟩ := by
      refine reparse_core s n p par ('/' :: '/' :: (n ++ recombParams p par))
        hinv.scheme_chars hinv.scheme_alpha hinv.scheme_lower hs_clean ?_ ?_ ?_
        hu_nohash hu_noq hinv.path_params hinv.params_scheme hparns
      · exact clean_cons (by decide) (clean_cons (by decide)
          (clean_append hinv.netloc_clean hu_clean))
      · intro _
        exact splitScheme_head_not_alpha '/' _ (by decide)
      · exact splitNetloc_marker n (recombParams p par) hinv.netloc_ok hstop
    rw [canonicalize_eq, hrep]
    exact hy1

/-- Claim C8, counterexample: `canonicalize_url` is not idempotent on CPython
3.11. For the input `"////"`, `urlparse` reads an empty netloc with path
`"//"`, `urlunparse` does not restore the lost marker, and a second
canonicalization shortens the string again: `canonicalize_url "////" = "//"`
and `canonicalize_url "//" = ""`. -/
theorem C8_counterexample :
    canonicalize_url (canonicalize_url "////".toList) ≠
      canonicalize_url "////".toList := by
  decide

/-- Claim C8, amended: `canonicalize_url` is idempotent for every URL whose
parse does not hit the marker-swallowing corner, i.e. whenever the parsed
netloc is nonempty or the parsed path does not begin with `//`. In
particular this covers every URL with an authority component and every
ordinary relative path. -/
theorem C8_canonicalize_idempotent (x : List Char)
    (H : (urlparse x).netloc ≠ [] ∨ (urlparse x).path.take 2 ≠ ['/', '/']) :
    canonicalize_url (canonicalize_url x) = canonicalize_url x := by
  have h1 : canonicalize_url x = urlunparse (clearQF (urlparse x)) := rfl
  rw [h1]
  exact canonical_stable (urlparse x) (parseInv_holds x) H

/-- Witness for C8: the hypothesis holds for `https://example.com/a` and the
canonicalization of that URL is a fixed point. -/
theorem C8_canonicalize_idempotent_witness :
    ((urlparse "https://example.com/a".toList).netloc ≠ [] ∨
      (urlparse "https://example.com/a".toList).path.take 2 ≠ ['/', '/']) ∧
    canonicalize_url (canonicalize_url "https://example.com/a".toList) =
      canonicalize_url "https://example.com/a".toList :=
  ⟨by decide, C8_canonicalize_idempotent _ (by decide)⟩
